import Mathlib

/-!
# Heap scanning primitives of the SBCL runtime (`src/runtime/search.c`)

A shallow embedding of `search_for_type`, `strcmp_ucs4_ascii` and
`search_for_symbol`, and theorems about them.

Conventions of the embedding.

* Memory is byte addressed; multi-byte reads are little endian (the x86
  targets).  Addresses are natural numbers; pointer arithmetic does not wrap
  (overflowing a pointer is undefined in C).
* The macros, constants and predicates that `search.c` takes from headers which
  are not part of the sources at hand (`gc_managed_addr_p`, `widetag_of`,
  `lowtag_of`, `make_fixnum`, `VECTOR`, `OBJECT_SIZE`, the widetag and lowtag
  constants, the slot layout of `struct symbol` and `struct vector`) are the
  fields of `Runtime`: every theorem holds for every choice of them.
* A loop that may run forever takes a fuel argument, the number of times its
  condition may be evaluated; `none` means the fuel ran out.
* The `_log` variant of a function is the same code instrumented with the list
  of memory accesses, region checks and comparator calls it performs, in
  program order.
-/

namespace Sbcl

/-- One byte of memory. -/
abbrev Byte := Fin 256

/-- Byte-addressed memory. -/
abbrev Memory := Nat → Byte

/-- A C string argument (`char *`): the listed bytes followed by the terminating
NUL.  A listed byte may itself be NUL (an embedded NUL, which is then the
string's end for `strlen` and the comparators). -/
abbrev CString := List Byte

/-- The facilities `search.c` takes from the rest of the runtime. -/
structure Runtime where
  /-- Bytes per `lispobj`. -/
  N_WORD_BYTES : Nat
  /-- Region membership test of the collector. -/
  gc_managed_addr_p : Nat → Bool
  /-- Type code of a header word. -/
  widetag_of : Nat → Nat
  /-- Low tag bits of a word. -/
  lowtag_of : Nat → Nat
  /-- Tagged immediate integer for a count. -/
  make_fixnum : Nat → Nat
  /-- Untagged address of a vector from a tagged reference. -/
  VECTOR : Nat → Nat
  /-- Size in words of the object whose header word is given, at the given
  address (the size functions may inspect the object in memory). -/
  OBJECT_SIZE : Memory → Nat → Nat → Nat
  SYMBOL_WIDETAG : Nat
  SIMPLE_BASE_STRING_WIDETAG : Nat
  SIMPLE_CHARACTER_STRING_WIDETAG : Nat
  OTHER_POINTER_LOWTAG : Nat
  /-- Word index of the `name` slot in `struct symbol`. -/
  symbol_name_slot : Nat
  /-- Word index of the `length` slot in `struct vector` (`header` is slot 0). -/
  vector_length_slot : Nat
  /-- Word index at which `data` starts in `struct vector`. -/
  vector_data_slot : Nat
  /-- Whether the build has `LISP_FEATURE_SB_UNICODE`. -/
  sb_unicode : Bool
  /-- Whether plain `char` is a signed type on the target. -/
  char_signed : Bool

/-- Little-endian read of `n` bytes at `a`. -/
def read_le (m : Memory) (a : Nat) : Nat → Nat
  | 0 => 0
  | n + 1 => (m a).val + 256 * read_le m (a + 1) n

/-- Read of a `lispobj` at address `a`. -/
def read_word (rt : Runtime) (m : Memory) (a : Nat) : Nat :=
  read_le m a rt.N_WORD_BYTES

/-- Read of a `uint32_t` at address `a`. -/
def read_u32 (m : Memory) (a : Nat) : Nat :=
  read_le m a 4

/-- An observable step of a scan. -/
inductive Access where
  /-- Evaluation of `gc_managed_addr_p(addr)` with its result. -/
  | managed (addr : Nat) (ok : Bool)
  /-- Read of a `lispobj` at `addr`. -/
  | word (addr : Nat)
  /-- Read of one byte at `addr`. -/
  | byte (addr : Nat)
  /-- Read of a `uint32_t` at `addr`. -/
  | unit32 (addr : Nat)
  /-- Call `strcmp(a, name)`. -/
  | call_strcmp (a : Nat)
  /-- Call `strcmp_ucs4_ascii(a, name)`. -/
  | call_strcmp_ucs4_ascii (a : Nat)
  deriving DecidableEq, Repr

/-! ## `search_for_type` (search.c lines 22-38) -/

/-- The function `search_for_type`.  `start` and `count` are the values of
`*start` and `*count` on entry; the result is the returned boolean with the
values of `*start` and `*count` on return. -/
def search_for_type (rt : Runtime) (m : Memory) (type : Int) :
    Nat → Nat → Int → Option (Bool × Nat × Int)
  | 0, _, _ => none
  | fuel + 1, start, count =>
    if (count = -1 ∨ count > 0) ∧ rt.gc_managed_addr_p start = true then
      let obj := read_word rt m start
      let count1 := if count ≠ -1 then count - 2 else count
      if (rt.widetag_of obj : Int) = type then
        some (true, start, count1)
      else
        search_for_type rt m type fuel (start + 2 * rt.N_WORD_BYTES) count1
    else
      some (false, start, count)

/-- The function `search_for_type` with its access log.  The region test is
evaluated only when the budget test has passed (`&&`), and the word at the
cursor is read only after the region test passed. -/
def search_for_type_log (rt : Runtime) (m : Memory) (type : Int) :
    Nat → Nat → Int → List Access × Option (Bool × Nat × Int)
  | 0, _, _ => ([], none)
  | fuel + 1, start, count =>
    if count = -1 ∨ count > 0 then
      if rt.gc_managed_addr_p start = true then
        let obj := read_word rt m start
        let count1 := if count ≠ -1 then count - 2 else count
        if (rt.widetag_of obj : Int) = type then
          ([Access.managed start true, Access.word start], some (true, start, count1))
        else
          let r := search_for_type_log rt m type fuel (start + 2 * rt.N_WORD_BYTES) count1
          (Access.managed start true :: Access.word start :: r.1, r.2)
      else
        ([Access.managed start false], some (false, start, count))
    else
      ([], some (false, start, count))

/-- Number of widetag comparisons (line 32) of a run: one per word read at
line 28. -/
def comparisons (log : List Access) : Nat :=
  (log.filter fun e => match e with
    | Access.word _ => true
    | _ => false).length

/-! ## The comparators -/

/-- The C library function `strlen`: the number of bytes before the first NUL. -/
def strlen : CString → Nat
  | [] => 0
  | c :: cs => if c.val = 0 then 0 else strlen cs + 1

/-- The C library function `strcmp(a, b)` with `a` in memory and `b` the target
string: bytes are compared as `unsigned char` until they differ or both are
NUL; the result is the difference of the first differing pair, or 0. -/
def strcmp (m : Memory) : Nat → CString → Int
  | a, [] => ((m a).val : Int)
  | a, c :: cs =>
    if (m a).val ≠ c.val then ((m a).val : Int) - (c.val : Int)
    else if c.val = 0 then 0
    else strcmp m (a + 1) cs

/-- The function `strcmp` with the bytes it reads from memory. -/
def strcmp_log (m : Memory) : Nat → CString → List Access × Int
  | a, [] => ([Access.byte a], ((m a).val : Int))
  | a, c :: cs =>
    if (m a).val ≠ c.val then ([Access.byte a], ((m a).val : Int) - (c.val : Int))
    else if c.val = 0 then ([Access.byte a], 0)
    else
      let r := strcmp_log m (a + 1) cs
      (Access.byte a :: r.1, r.2)

/-- Value of `b[i]`, a plain `char`, converted to `uint32_t` for the
subtraction in line 52: sign extended when `char` is signed. -/
def char_as_u32 (rt : Runtime) (c : Byte) : Nat :=
  if rt.char_signed = true ∧ 128 ≤ c.val then c.val + (2 ^ 32 - 256) else c.val

/-- Conversion of a `uint32_t` value to the `int` that is returned. -/
def u32_as_int (x : Nat) : Int :=
  if x % 2 ^ 32 < 2 ^ 31 then ((x % 2 ^ 32 : Nat) : Int) else ((x % 2 ^ 32 : Nat) : Int) - 2 ^ 32

/-- The value of `a[i] - b[i]` in line 52, computed in `uint32_t`. -/
def ucs4_difference (rt : Runtime) (unit : Nat) (c : Byte) : Int :=
  u32_as_int ((unit + 2 ^ 32 - char_as_u32 rt c) % 2 ^ 32)

/-- The function `strcmp_ucs4_ascii(a, b)` (lines 40-53), `a` the address of the
32-bit units and `b` the target string.  The recursion follows the index `i`:
the unit `a[i]` is at `a + 4 * i`, the byte `b[i]` is the head of the rest of
the target (NUL once the listed bytes are used up). -/
def strcmp_ucs4_ascii (rt : Runtime) (m : Memory) : Nat → CString → Int
  | a, [] =>
    if read_u32 m a = 0 then 0 else ucs4_difference rt (read_u32 m a) 0
  | a, c :: cs =>
    if read_u32 m a = c.val then
      if c.val = 0 then 0 else strcmp_ucs4_ascii rt m (a + 4) cs
    else ucs4_difference rt (read_u32 m a) c

/-- The function `strcmp_ucs4_ascii` with the units it reads from memory: one
read per evaluation of the loop condition, and one more for `a[i]` in the
final `return`. -/
def strcmp_ucs4_ascii_log (rt : Runtime) (m : Memory) : Nat → CString → List Access × Int
  | a, [] =>
    if read_u32 m a = 0 then ([Access.unit32 a], 0)
    else ([Access.unit32 a, Access.unit32 a], ucs4_difference rt (read_u32 m a) 0)
  | a, c :: cs =>
    if read_u32 m a = c.val then
      if c.val = 0 then ([Access.unit32 a], 0)
      else
        let r := strcmp_ucs4_ascii_log rt m (a + 4) cs
        (Access.unit32 a :: r.1, r.2)
    else ([Access.unit32 a, Access.unit32 a], ucs4_difference rt (read_u32 m a) c)

/-! ## `search_for_symbol` (search.c lines 55-82) -/

/-- Address of the `name` slot of the symbol at `where_`. -/
def symbol_name_addr (rt : Runtime) (where_ : Nat) : Nat :=
  where_ + rt.symbol_name_slot * rt.N_WORD_BYTES

/-- Address of the `length` slot of the vector at `v`. -/
def vector_length_addr (rt : Runtime) (v : Nat) : Nat :=
  v + rt.vector_length_slot * rt.N_WORD_BYTES

/-- Address of `data` of the vector at `v`. -/
def vector_data_addr (rt : Runtime) (v : Nat) : Nat :=
  v + rt.vector_data_slot * rt.N_WORD_BYTES

/-- The test of lines 67-76 on the vector `symbol_name`: managed, and either a
base string of the target's length that `strcmp` finds equal or, in a unicode
build, a character string of the target's length that `strcmp_ucs4_ascii`
finds equal. -/
def name_matches (rt : Runtime) (m : Memory) (name : CString) (namelen : Nat)
    (symbol_name : Nat) : Bool :=
  rt.gc_managed_addr_p symbol_name &&
    ((decide (rt.widetag_of (read_word rt m symbol_name) = rt.SIMPLE_BASE_STRING_WIDETAG)
        && decide (read_word rt m (vector_length_addr rt symbol_name) = namelen)
        && decide (strcmp m (vector_data_addr rt symbol_name) name = 0))
     || (rt.sb_unicode
        && decide (rt.widetag_of (read_word rt m symbol_name) = rt.SIMPLE_CHARACTER_STRING_WIDETAG)
        && decide (read_word rt m (vector_length_addr rt symbol_name) = namelen)
        && decide (strcmp_ucs4_ascii rt m (vector_data_addr rt symbol_name) name = 0)))

/-- The test of lines 64-77 on the object at `where_` with header `word`: true
exactly when the loop executes `return where`. -/
def candidate_matches (rt : Runtime) (m : Memory) (name : CString) (namelen : Nat)
    (where_ word : Nat) : Bool :=
  if rt.widetag_of word = rt.SYMBOL_WIDETAG ∧
      rt.lowtag_of (read_word rt m (symbol_name_addr rt where_)) = rt.OTHER_POINTER_LOWTAG then
    name_matches rt m name namelen (rt.VECTOR (read_word rt m (symbol_name_addr rt where_)))
  else false

/-- The loop of lines 62-81, from the cursor `where_`. -/
def search_for_symbol_loop (rt : Runtime) (m : Memory) (name : CString) (namelen limit : Nat) :
    Nat → Nat → Option Nat
  | 0, _ => none
  | fuel + 1, where_ =>
    if where_ < limit then
      let word := read_word rt m where_
      if candidate_matches rt m name namelen where_ word = true then
        some where_
      else
        search_for_symbol_loop rt m name namelen limit fuel
          (where_ + rt.OBJECT_SIZE m word where_ * rt.N_WORD_BYTES)
    else
      some 0

/-- The function `search_for_symbol(name, start, end)`; the result is the
returned pointer, 0 for not found. -/
def search_for_symbol (rt : Runtime) (m : Memory) (name : CString) (start end_ : Nat)
    (fuel : Nat) : Option Nat :=
  search_for_symbol_loop rt m name (rt.make_fixnum (strlen name)) end_ fuel start

/-- One disjunct of the test of lines 68-74 with its accesses: the header is
read, the length only if the widetag is the wanted one, and the comparator is
called only if the length is the target's (`&&`).  `wide` selects the second
disjunct. -/
def string_test_log (rt : Runtime) (m : Memory) (name : CString) (namelen : Nat)
    (symbol_name : Nat) (wide : Bool) : List Access × Bool :=
  let wanted := if wide then rt.SIMPLE_CHARACTER_STRING_WIDETAG else rt.SIMPLE_BASE_STRING_WIDETAG
  if rt.widetag_of (read_word rt m symbol_name) = wanted then
    if read_word rt m (vector_length_addr rt symbol_name) = namelen then
      if wide then
        let r := strcmp_ucs4_ascii_log rt m (vector_data_addr rt symbol_name) name
        (Access.word symbol_name :: Access.word (vector_length_addr rt symbol_name)
          :: Access.call_strcmp_ucs4_ascii (vector_data_addr rt symbol_name) :: r.1,
         decide (r.2 = 0))
      else
        let r := strcmp_log m (vector_data_addr rt symbol_name) name
        (Access.word symbol_name :: Access.word (vector_length_addr rt symbol_name)
          :: Access.call_strcmp (vector_data_addr rt symbol_name) :: r.1,
         decide (r.2 = 0))
    else
      ([Access.word symbol_name, Access.word (vector_length_addr rt symbol_name)], false)
  else
    ([Access.word symbol_name], false)

/-- The test of lines 67-76 with its accesses. -/
def name_matches_log (rt : Runtime) (m : Memory) (name : CString) (namelen : Nat)
    (symbol_name : Nat) : List Access × Bool :=
  if rt.gc_managed_addr_p symbol_name = true then
    let narrow := string_test_log rt m name namelen symbol_name false
    if narrow.2 = true then
      (Access.managed symbol_name true :: narrow.1, true)
    else if rt.sb_unicode = true then
      let wide := string_test_log rt m name namelen symbol_name true
      (Access.managed symbol_name true :: (narrow.1 ++ wide.1), wide.2)
    else
      (Access.managed symbol_name true :: narrow.1, false)
  else
    ([Access.managed symbol_name false], false)

/-- The test of lines 64-77 with its accesses: the name slot is read for the
lowtag test only when the header is a symbol header, and once more for
`VECTOR(symbol->name)`. -/
def candidate_matches_log (rt : Runtime) (m : Memory) (name : CString) (namelen : Nat)
    (where_ word : Nat) : List Access × Bool :=
  if rt.widetag_of word = rt.SYMBOL_WIDETAG then
    if rt.lowtag_of (read_word rt m (symbol_name_addr rt where_)) = rt.OTHER_POINTER_LOWTAG then
      let r := name_matches_log rt m name namelen
        (rt.VECTOR (read_word rt m (symbol_name_addr rt where_)))
      (Access.word (symbol_name_addr rt where_) :: Access.word (symbol_name_addr rt where_) :: r.1,
       r.2)
    else
      ([Access.word (symbol_name_addr rt where_)], false)
  else
    ([], false)

/-- The loop of lines 62-81 with its accesses.  What `OBJECT_SIZE` itself reads
is not part of the log. -/
def search_for_symbol_loop_log (rt : Runtime) (m : Memory) (name : CString)
    (namelen limit : Nat) : Nat → Nat → List Access × Option Nat
  | 0, _ => ([], none)
  | fuel + 1, where_ =>
    if where_ < limit then
      let word := read_word rt m where_
      let t := candidate_matches_log rt m name namelen where_ word
      if t.2 = true then
        (Access.word where_ :: t.1, some where_)
      else
        let r := search_for_symbol_loop_log rt m name namelen limit fuel
          (where_ + rt.OBJECT_SIZE m word where_ * rt.N_WORD_BYTES)
        (Access.word where_ :: (t.1 ++ r.1), r.2)
    else
      ([], some 0)

/-- The function `search_for_symbol` with its accesses to the heap. -/
def search_for_symbol_log (rt : Runtime) (m : Memory) (name : CString) (start end_ : Nat)
    (fuel : Nat) : List Access × Option Nat :=
  search_for_symbol_loop_log rt m name (rt.make_fixnum (strlen name)) end_ fuel start

/-- The objects of the range `[where_, limit)` in walk order: the cursor starts
at `where_` and advances by `OBJECT_SIZE` of the header it is at, while it is
below `limit`. -/
def walk (rt : Runtime) (m : Memory) (limit : Nat) : Nat → Nat → List Nat
  | 0, _ => []
  | fuel + 1, where_ =>
    if where_ < limit then
      where_ :: walk rt m limit fuel
        (where_ + rt.OBJECT_SIZE m (read_word rt m where_) where_ * rt.N_WORD_BYTES)
    else []

/-- Whether the object at `o` passes the test of lines 64-77 for the target
`name`: its header is a symbol header, its name slot is `OTHER_POINTER` tagged,
and the vector it refers to is managed and matches in length and contents. -/
def object_matches (rt : Runtime) (m : Memory) (name : CString) (o : Nat) : Bool :=
  candidate_matches rt m name (rt.make_fixnum (strlen name)) o (read_word rt m o)

/-- The vector `symbol_name` of line 66 for the candidate at `where_`: the
untagged address held in its name slot. -/
def symbol_name_vector (rt : Runtime) (m : Memory) (where_ : Nat) : Nat :=
  rt.VECTOR (read_word rt m (symbol_name_addr rt where_))

/-- The accesses to the vector at `v` that are open to the test of lines 68-74:
its header, its length and, only when that length is `namelen`, the comparator
calls on its data and the data elements at indices up to the target's length
(bytes for `strcmp`, 32-bit units for `strcmp_ucs4_ascii`). -/
def name_access (rt : Runtime) (m : Memory) (name : CString) (namelen v : Nat)
    (e : Access) : Prop :=
  e = Access.word v ∨
  e = Access.word (vector_length_addr rt v) ∨
  (read_word rt m (vector_length_addr rt v) = namelen ∧
    (e = Access.call_strcmp (vector_data_addr rt v) ∨
     e = Access.call_strcmp_ucs4_ascii (vector_data_addr rt v) ∨
     (∃ i, i ≤ strlen name ∧ e = Access.byte (vector_data_addr rt v + i)) ∨
     (∃ i, i ≤ strlen name ∧ e = Access.unit32 (vector_data_addr rt v + 4 * i))))

/-- The accesses open to the test of lines 64-77 on the candidate at `where_`:
the name slot; the region test of the vector address held in it; and, only when
that address is managed, the accesses to the vector. -/
def candidate_access (rt : Runtime) (m : Memory) (name : CString) (namelen where_ : Nat)
    (e : Access) : Prop :=
  e = Access.word (symbol_name_addr rt where_) ∨
  e = Access.managed (symbol_name_vector rt m where_)
        (rt.gc_managed_addr_p (symbol_name_vector rt m where_)) ∨
  (rt.gc_managed_addr_p (symbol_name_vector rt m where_) = true ∧
    name_access rt m name namelen (symbol_name_vector rt m where_) e)

/-- The two memories look the same to the walk and to the test of lines 64-77
at the object `o`, except possibly in the data of a name whose stored length
is not the target's: they agree on the header word and the object size; for a
symbol header, on the name slot; for an `OTHER_POINTER` tagged name slot with a
managed vector address, on the vector's header and length; and, only when that
length is the target's fixnum length, on the data bytes and units at indices
up to the target's length. -/
abbrev agree_but_unmatched_data (rt : Runtime) (m1 m2 : Memory) (name : CString) (o : Nat) : Prop :=
  read_word rt m1 o = read_word rt m2 o ∧
  rt.OBJECT_SIZE m1 (read_word rt m1 o) o = rt.OBJECT_SIZE m2 (read_word rt m2 o) o ∧
  (rt.widetag_of (read_word rt m1 o) = rt.SYMBOL_WIDETAG →
    read_word rt m1 (symbol_name_addr rt o) = read_word rt m2 (symbol_name_addr rt o) ∧
    (rt.lowtag_of (read_word rt m1 (symbol_name_addr rt o)) = rt.OTHER_POINTER_LOWTAG →
      rt.gc_managed_addr_p (symbol_name_vector rt m1 o) = true →
      read_word rt m1 (symbol_name_vector rt m1 o) = read_word rt m2 (symbol_name_vector rt m1 o) ∧
      read_word rt m1 (vector_length_addr rt (symbol_name_vector rt m1 o))
        = read_word rt m2 (vector_length_addr rt (symbol_name_vector rt m1 o)) ∧
      (read_word rt m1 (vector_length_addr rt (symbol_name_vector rt m1 o))
          = rt.make_fixnum (strlen name) →
        ∀ i, i ≤ strlen name →
          m1 (vector_data_addr rt (symbol_name_vector rt m1 o) + i)
            = m2 (vector_data_addr rt (symbol_name_vector rt m1 o) + i) ∧
          read_u32 m1 (vector_data_addr rt (symbol_name_vector rt m1 o) + 4 * i)
            = read_u32 m2 (vector_data_addr rt (symbol_name_vector rt m1 o) + 4 * i))))

/-- Whether an access is a comparator call. -/
def Access.is_call : Access → Bool
  | Access.call_strcmp _ => true
  | Access.call_strcmp_ucs4_ascii _ => true
  | _ => false

/-- The loop of lines 62-81 with the number of times its body ran (the number
of header words read at line 63). -/
def search_for_symbol_loop_steps (rt : Runtime) (m : Memory) (name : CString)
    (namelen limit : Nat) : Nat → Nat → Nat × Option Nat
  | 0, _ => (0, none)
  | fuel + 1, where_ =>
    if where_ < limit then
      let word := read_word rt m where_
      if candidate_matches rt m name namelen where_ word = true then
        (1, some where_)
      else
        let r := search_for_symbol_loop_steps rt m name namelen limit fuel
          (where_ + rt.OBJECT_SIZE m word where_ * rt.N_WORD_BYTES)
        (r.1 + 1, r.2)
    else
      (0, some 0)

/-- The function `search_for_symbol` with the number of iterations of its
loop. -/
def search_for_symbol_steps (rt : Runtime) (m : Memory) (name : CString) (start end_ : Nat)
    (fuel : Nat) : Nat × Option Nat :=
  search_for_symbol_loop_steps rt m name (rt.make_fixnum (strlen name)) end_ fuel start

/-- Number of comparator calls in a log. -/
def comparator_calls (log : List Access) : Nat :=
  (log.filter Access.is_call).length

/-! ## A concrete configuration, for evaluating the code on examples -/

/-- A 64-bit little-endian configuration: widetag in the low byte, lowtag in
the low four bits, fixnums shifted by one bit, managed addresses from 4096 up
to 8192.  In it a symbol has six words with its name in slot 4, and any other
object has one word more than the count held above the widetag in its header.
Plain `char` is signed and the build has unicode support. -/
def demo_runtime : Runtime where
  N_WORD_BYTES := 8
  gc_managed_addr_p := fun a => decide (4096 ≤ a ∧ a < 8192)
  widetag_of := fun w => w % 256
  lowtag_of := fun w => w % 16
  make_fixnum := fun n => 2 * n % 2 ^ 64
  VECTOR := fun x => x - 15
  OBJECT_SIZE := fun _ w _ => if w % 256 = 45 then 6 else 1 + w / 256
  SYMBOL_WIDETAG := 45
  SIMPLE_BASE_STRING_WIDETAG := 229
  SIMPLE_CHARACTER_STRING_WIDETAG := 233
  OTHER_POINTER_LOWTAG := 15
  symbol_name_slot := 4
  vector_length_slot := 1
  vector_data_slot := 2
  sb_unicode := true
  char_signed := true

/-- The memory that holds the 64-bit words `ws` from address `base` on, and
zero bytes elsewhere. -/
def memory_of_words (base : Nat) (ws : List Nat) : Memory := fun a =>
  if base ≤ a then
    ⟨ws.getD ((a - base) / 8) 0 / 256 ^ ((a - base) % 8) % 256, Nat.mod_lt _ (by decide)⟩
  else 0

/-- Six 2-word cells at 4096; the first word of the fourth cell, at 4144, has
widetag 45, and no earlier cell has. -/
def six_cells : Memory :=
  memory_of_words 4096 [1, 0, 3, 0, 5, 0, 45, 0, 7, 0, 9, 0]

/-- Three objects at 4096, 4144 and 4176, ending at 4224: the symbol named `A`,
a vector of four words, the symbol named `TARGET`; after them the two names
as base strings, `A` at 4224 and `TARGET` at 4256. -/
def three_objects : Memory :=
  memory_of_words 4096
    [45, 0, 0, 0, 4239, 0,
     985, 4, 0, 0,
     45, 0, 0, 0, 4271, 0,
     997, 2, 65, 0,
     997, 12, 0x544547524154, 0]

/-- The target `TARGET`. -/
def target_name : CString := [84, 65, 82, 71, 69, 84]

/-- The target `MISSING`. -/
def missing_name : CString := [77, 73, 83, 83, 73, 78, 71]

/-- The target `BAR`. -/
def bar_name : CString := [66, 65, 82]

/-- A symbol at 4096 whose name, at 4144, is the base string `BAR`. -/
def bar_narrow : Memory :=
  memory_of_words 4096 [45, 0, 0, 0, 4159, 0, 997, 6, 0x524142, 0]

/-- The same symbol with its name stored as the character string `BAR`: three
32-bit units and a zero unit. -/
def bar_wide : Memory :=
  memory_of_words 4096 [45, 0, 0, 0, 4159, 0, 1001, 6, 0x4100000042, 0x52]

/-- The target bytes `AB\0XY`: an embedded NUL after `AB`. -/
def ab_nul_xy_name : CString := [65, 66, 0, 88, 89]

/-- A character string at 4096 of declared length 5 (length field 10) that
stores `AB` and NUL padding; its units start at 4112. -/
def wide_ab_padded : Memory :=
  memory_of_words 4096 [1001, 10, 0x4200000041, 0, 0]

/-- A symbol at 4096 whose name is a base string placed in the last two managed
words: its header is at 8176 and its length at 8184, and its data `TARGET`
starts at 8192, the first address above the managed region. -/
def name_at_region_end : Memory := fun a =>
  if 8176 ≤ a then memory_of_words 8176 [997, 12, 0x544547524154, 0] a
  else memory_of_words 4096 [45, 0, 0, 0, 8191, 0] a

/-- The memory `three_objects` with other data bytes (`ZZZ`) in the name of the
first symbol, whose declared length is 1. -/
def three_objects_other_data : Memory :=
  memory_of_words 4096
    [45, 0, 0, 0, 4239, 0,
     985, 4, 0, 0,
     45, 0, 0, 0, 4271, 0,
     997, 2, 0x5A5A5A, 0,
     997, 12, 0x544547524154, 0]

/-- Two symbols with unusable name slots, at 4096 and 4144, ending at 4192.
The name slot of the first is `OTHER_POINTER` tagged but refers to 8192, above
the managed region, where the base string `TARGET` is stored.  The name slot
of the second holds 4247, with lowtag 7, next to the base string `TARGET`
stored at 4240. -/
def unusable_names : Memory := fun a =>
  if 8192 ≤ a then memory_of_words 8192 [997, 12, 0x544547524154, 0] a
  else memory_of_words 4096
    [45, 0, 0, 0, 8207, 0,
     45, 0, 0, 0, 4247, 0,
     0, 0, 0, 0, 0, 0,
     997, 12, 0x544547524154, 0] a

/-- Two symbols, at 4096 and 4144, ending at 4192.  The name of the first, at
4192, is a character string of declared length 5 (length field 10) storing
`AB` and NUL padding; the name of the second, at 4240, is the base string
`AB` of declared length 2. -/
def two_ab_symbols : Memory :=
  memory_of_words 4096
    [45, 0, 0, 0, 4207, 0,
     45, 0, 0, 0, 4255, 0,
     1257, 10, 0x4200000041, 0, 0, 0,
     997, 4, 0x4241, 0]

/-- One 32-bit unit `0xFFFFFFE9` at 4096, followed by zero units. -/
def unit_ffffffe9 : Memory :=
  memory_of_words 4096 [0xFFFFFFE9, 0]

/-- The target of the single byte `0xE9`. -/
def e9_name : CString := [233]

/-! ## Theorems about `search_for_type` -/

/-- Unfolding of one iteration of `search_for_type` that does not match. -/
theorem search_for_type_step (rt : Runtime) (m : Memory) (type : Int) (fuel start : Nat)
    (count : Int) (hc : count = -1 ∨ count > 0) (hm : rt.gc_managed_addr_p start = true)
    (hw : (rt.widetag_of (read_word rt m start) : Int) ≠ type) :
    search_for_type rt m type (fuel + 1) start count
      = search_for_type rt m type fuel (start + 2 * rt.N_WORD_BYTES)
          (if count ≠ -1 then count - 2 else count) := by
  rw [search_for_type, if_pos ⟨hc, hm⟩]
  simp only [hw, if_false]

/-- Unfolding of the iteration of `search_for_type` that matches. -/
theorem search_for_type_hit (rt : Runtime) (m : Memory) (type : Int) (fuel start : Nat)
    (count : Int) (hc : count = -1 ∨ count > 0) (hm : rt.gc_managed_addr_p start = true)
    (hw : (rt.widetag_of (read_word rt m start) : Int) = type) :
    search_for_type rt m type (fuel + 1) start count
      = some (true, start, if count ≠ -1 then count - 2 else count) := by
  rw [search_for_type, if_pos ⟨hc, hm⟩]
  simp only [hw, if_true]

/-- Unfolding of `search_for_type` when the loop condition fails. -/
theorem search_for_type_stop (rt : Runtime) (m : Memory) (type : Int) (fuel start : Nat)
    (count : Int) (h : ¬ ((count = -1 ∨ count > 0) ∧ rt.gc_managed_addr_p start = true)) :
    search_for_type rt m type (fuel + 1) start count = some (false, start, count) := by
  rw [search_for_type, if_neg h]

/-- The instrumented `search_for_type` computes the same result. -/
theorem search_for_type_log_result (rt : Runtime) (m : Memory) (type : Int) :
    ∀ fuel start count,
      (search_for_type_log rt m type fuel start count).2
        = search_for_type rt m type fuel start count := by
  intro fuel
  induction fuel with
  | zero => intro start count; rfl
  | succ fuel ih =>
    intro start count
    by_cases h1 : count = -1 ∨ count > 0
    · by_cases h2 : rt.gc_managed_addr_p start = true
      · by_cases h3 : (rt.widetag_of (read_word rt m start) : Int) = type
        · rw [search_for_type_hit rt m type fuel start count h1 h2 h3, search_for_type_log,
            if_pos h1, if_pos h2]
          simp only [h3, if_true]
        · rw [search_for_type_step rt m type fuel start count h1 h2 h3, search_for_type_log,
            if_pos h1, if_pos h2]
          simp only [h3, if_false]
          exact ih _ _
      · rw [search_for_type_stop rt m type fuel start count (fun h => h2 h.2),
          search_for_type_log, if_pos h1, if_neg h2]
    · rw [search_for_type_stop rt m type fuel start count (fun h => h1 h.1),
        search_for_type_log, if_neg h1]

/-- C3: when `search_for_type` returns true, the final cursor is a managed
address, the word there carries the requested widetag, the cursor has advanced
by `2 * k` words for some `k`, and none of the `k` cells passed on the way
carries the widetag: the match is the first one on the 2-word grid. -/
theorem search_for_type_true_is_first_match (rt : Runtime) (m : Memory) (type : Int) :
    ∀ (fuel start : Nat) (count : Int) (cursor : Nat) (budget : Int),
      search_for_type rt m type fuel start count = some (true, cursor, budget) →
      rt.gc_managed_addr_p cursor = true ∧
      (rt.widetag_of (read_word rt m cursor) : Int) = type ∧
      ∃ k : Nat, cursor = start + 2 * k * rt.N_WORD_BYTES ∧
        ∀ j, j < k →
          (rt.widetag_of (read_word rt m (start + 2 * j * rt.N_WORD_BYTES)) : Int) ≠ type := by
  intro fuel
  induction fuel with
  | zero => intro start count cursor budget h; simp [search_for_type] at h
  | succ fuel ih =>
    intro start count cursor budget h
    by_cases hcond : (count = -1 ∨ count > 0) ∧ rt.gc_managed_addr_p start = true
    · by_cases hw : (rt.widetag_of (read_word rt m start) : Int) = type
      · rw [search_for_type_hit rt m type fuel start count hcond.1 hcond.2 hw] at h
        simp only [Option.some.injEq, Prod.mk.injEq, true_and] at h
        obtain ⟨hcur, -⟩ := h
        subst hcur
        exact ⟨hcond.2, hw, 0, by simp, fun j hj => absurd hj (Nat.not_lt_zero j)⟩
      · rw [search_for_type_step rt m type fuel start count hcond.1 hcond.2 hw] at h
        obtain ⟨hman, htag, k, hk, hbefore⟩ := ih _ _ _ _ h
        refine ⟨hman, htag, k + 1, ?_, ?_⟩
        · rw [hk]; ring
        · intro j hj
          cases j with
          | zero => simpa using hw
          | succ j =>
            have := hbefore j (by omega)
            have e : start + 2 * (j + 1) * rt.N_WORD_BYTES
                = start + 2 * rt.N_WORD_BYTES + 2 * j * rt.N_WORD_BYTES := by ring
            rw [e]; exact this
    · rw [search_for_type_stop rt m type fuel start count hcond] at h
      simp at h

/-- Witness for C3 on the six cells: the unbounded scan for widetag 45 stops at
the fourth cell. -/
theorem search_for_type_true_is_first_match_witness :
    search_for_type demo_runtime six_cells 45 10 4096 (-1) = some (true, 4144, -1) ∧
    (demo_runtime.gc_managed_addr_p 4144 = true ∧
      (demo_runtime.widetag_of (read_word demo_runtime six_cells 4144) : Int) = 45 ∧
      ∃ k : Nat, 4144 = 4096 + 2 * k * demo_runtime.N_WORD_BYTES ∧
        ∀ j, j < k →
          (demo_runtime.widetag_of
            (read_word demo_runtime six_cells (4096 + 2 * j * demo_runtime.N_WORD_BYTES)) : Int)
            ≠ 45) :=
  ⟨by decide,
   search_for_type_true_is_first_match demo_runtime six_cells 45 10 4096 (-1) 4144 (-1)
     (by decide)⟩

/-- Cells passed without a match: `n` managed cells none of which carries the
widetag use up `n` iterations and, when the budget is bounded, `2 * n` of it. -/
theorem search_for_type_skip (rt : Runtime) (m : Memory) (type : Int) :
    ∀ (n fuel start : Nat) (count : Int),
      (count = -1 ∨ 2 * (n : Int) - 1 ≤ count) →
      (∀ j, j < n → rt.gc_managed_addr_p (start + 2 * j * rt.N_WORD_BYTES) = true ∧
        (rt.widetag_of (read_word rt m (start + 2 * j * rt.N_WORD_BYTES)) : Int) ≠ type) →
      search_for_type rt m type (fuel + n) start count
        = search_for_type rt m type fuel (start + 2 * n * rt.N_WORD_BYTES)
            (if count ≠ -1 then count - 2 * (n : Int) else count) := by
  intro n
  induction n with
  | zero =>
    intro fuel start count _ _
    simp
  | succ n ih =>
    intro fuel start count hc hcells
    have h0 := hcells 0 (Nat.succ_pos n)
    simp only [Nat.mul_zero, Nat.zero_mul, Nat.add_zero] at h0
    have hc0 : count = -1 ∨ count > 0 := by
      rcases hc with hc | hc
      · exact Or.inl hc
      · right; push_cast at hc; omega
    have hfuel : fuel + (n + 1) = (fuel + n) + 1 := by omega
    rw [hfuel, search_for_type_step rt m type (fuel + n) start count hc0 h0.1 h0.2]
    have hc1 : (if count ≠ -1 then count - 2 else count) = -1 ∨
        2 * (n : Int) - 1 ≤ (if count ≠ -1 then count - 2 else count) := by
      rcases hc with hc | hc
      · left; simp [hc]
      · right; push_cast at hc; split_ifs <;> omega
    have hcells1 : ∀ j, j < n →
        rt.gc_managed_addr_p (start + 2 * rt.N_WORD_BYTES + 2 * j * rt.N_WORD_BYTES) = true ∧
        (rt.widetag_of (read_word rt m
          (start + 2 * rt.N_WORD_BYTES + 2 * j * rt.N_WORD_BYTES)) : Int) ≠ type := by
      intro j hj
      have := hcells (j + 1) (by omega)
      have e : start + 2 * (j + 1) * rt.N_WORD_BYTES
          = start + 2 * rt.N_WORD_BYTES + 2 * j * rt.N_WORD_BYTES := by ring
      rw [e] at this; exact this
    rw [ih fuel _ _ hc1 hcells1]
    have ea : start + 2 * rt.N_WORD_BYTES + 2 * n * rt.N_WORD_BYTES
        = start + 2 * (n + 1) * rt.N_WORD_BYTES := by ring
    have eb : (if (if count ≠ -1 then count - 2 else count) ≠ -1
          then (if count ≠ -1 then count - 2 else count) - 2 * (n : Int)
          else (if count ≠ -1 then count - 2 else count))
        = (if count ≠ -1 then count - 2 * ((n + 1 : Nat) : Int) else count) := by
      rcases hc with hc | hc
      · simp [hc]
      · push_cast at hc ⊢; split_ifs <;> omega
    rw [ea, eb]

/-- C4: in a managed region of 2-word cells whose first cell carrying the
requested widetag is cell `k`, the unbounded scan returns true with the cursor
at cell `k`; a scan with a budget of `2 * n` words returns false when `n ≤ k`
(the cursor is then `n` cells on and the budget is 0) and returns true with
the cursor at cell `k` when `k < n`. -/
theorem search_for_type_budget_scenario (rt : Runtime) (m : Memory) (type : Int)
    (start k : Nat)
    (hman : ∀ j, j ≤ k → rt.gc_managed_addr_p (start + 2 * j * rt.N_WORD_BYTES) = true)
    (hmiss : ∀ j, j < k →
      (rt.widetag_of (read_word rt m (start + 2 * j * rt.N_WORD_BYTES)) : Int) ≠ type)
    (hhit : (rt.widetag_of (read_word rt m (start + 2 * k * rt.N_WORD_BYTES)) : Int) = type) :
    (∀ fuel, k < fuel →
      search_for_type rt m type fuel start (-1)
        = some (true, start + 2 * k * rt.N_WORD_BYTES, -1)) ∧
    (∀ n fuel, n ≤ k → n < fuel →
      search_for_type rt m type fuel start (2 * (n : Int))
        = some (false, start + 2 * n * rt.N_WORD_BYTES, 0)) ∧
    (∀ n fuel, k < n → k < fuel →
      search_for_type rt m type fuel start (2 * (n : Int))
        = some (true, start + 2 * k * rt.N_WORD_BYTES, 2 * (n : Int) - 2 * ((k : Int) + 1))) := by
  have hcells : ∀ n, n ≤ k → ∀ j, j < n →
      rt.gc_managed_addr_p (start + 2 * j * rt.N_WORD_BYTES) = true ∧
      (rt.widetag_of (read_word rt m (start + 2 * j * rt.N_WORD_BYTES)) : Int) ≠ type :=
    fun n hn j hj => ⟨hman j (by omega), hmiss j (by omega)⟩
  refine ⟨?_, ?_, ?_⟩
  · intro fuel hfuel
    obtain ⟨f, rfl⟩ : ∃ f, fuel = (f + 1) + k := ⟨fuel - k - 1, by omega⟩
    rw [search_for_type_skip rt m type k (f + 1) start (-1) (Or.inl rfl) (hcells k le_rfl),
      search_for_type_hit rt m type f _ _ (Or.inl (by simp)) (hman k le_rfl) hhit]
    simp
  · intro n fuel hn hfuel
    obtain ⟨f, rfl⟩ : ∃ f, fuel = (f + 1) + n := ⟨fuel - n - 1, by omega⟩
    rw [search_for_type_skip rt m type n (f + 1) start _ (Or.inr (by omega)) (hcells n hn),
      search_for_type_stop]
    · have : (if 2 * (n : Int) ≠ -1 then 2 * (n : Int) - 2 * (n : Int) else 2 * (n : Int))
          = 0 := by
        split_ifs <;> omega
      rw [this]
    · have : (if 2 * (n : Int) ≠ -1 then 2 * (n : Int) - 2 * (n : Int) else 2 * (n : Int))
          = 0 := by
        split_ifs <;> omega
      rw [this]
      intro h
      rcases h.1 with h | h <;> omega
  · intro n fuel hn hfuel
    obtain ⟨f, rfl⟩ : ∃ f, fuel = (f + 1) + k := ⟨fuel - k - 1, by omega⟩
    have e1 : (if 2 * (n : Int) ≠ -1 then 2 * (n : Int) - 2 * (k : Int) else 2 * (n : Int))
        = 2 * (n : Int) - 2 * (k : Int) := by
      split_ifs <;> omega
    rw [search_for_type_skip rt m type k (f + 1) start _ (Or.inr (by omega)) (hcells k le_rfl),
      e1, search_for_type_hit rt m type f _ _ (Or.inr (by omega)) (hman k le_rfl) hhit]
    have e2 : (if 2 * (n : Int) - 2 * (k : Int) ≠ -1 then 2 * (n : Int) - 2 * (k : Int) - 2
        else 2 * (n : Int) - 2 * (k : Int)) = 2 * (n : Int) - 2 * ((k : Int) + 1) := by
      split_ifs <;> omega
    rw [e2]

/-- Witness for C4: six cells with the match in the fourth (`k = 3`); the
unbounded scan finds it and a budget of 4 words (`n = 2`) does not. -/
theorem search_for_type_budget_scenario_witness :
    search_for_type demo_runtime six_cells 45 10 4096 (-1) = some (true, 4144, -1) ∧
    search_for_type demo_runtime six_cells 45 10 4096 4 = some (false, 4128, 0) :=
  have h := search_for_type_budget_scenario demo_runtime six_cells 45 4096 3
    (by decide) (by decide) (by decide)
  ⟨h.1 10 (by decide), h.2.1 2 10 (by decide) (by decide)⟩

/-- A region check is not a comparison. -/
theorem comparisons_managed (a : Nat) (b : Bool) (l : List Access) :
    comparisons (Access.managed a b :: l) = comparisons l := by
  simp [comparisons, List.filter_cons]

/-- A word read counts as one comparison. -/
theorem comparisons_word (a : Nat) (l : List Access) :
    comparisons (Access.word a :: l) = comparisons l + 1 := by
  simp [comparisons, List.filter_cons]

/-- Bounded termination for an even budget `2 * b`: with fuel above `b` the
scan returns, after at most `b` comparisons, with the cursor at most `2 * b`
words on and an even budget between 0 and `2 * b` left. -/
theorem search_for_type_even_budget_bound (rt : Runtime) (m : Memory) (type : Int) :
    ∀ (b fuel start : Nat), b < fuel →
      ∃ (found : Bool) (cursor : Nat) (budget : Int),
        (search_for_type_log rt m type fuel start (2 * (b : Int))).2
          = some (found, cursor, budget) ∧
        comparisons (search_for_type_log rt m type fuel start (2 * (b : Int))).1 ≤ b ∧
        start ≤ cursor ∧ cursor ≤ start + 2 * b * rt.N_WORD_BYTES ∧
        0 ≤ budget ∧ budget ≤ 2 * (b : Int) := by
  intro b
  induction b with
  | zero =>
    intro fuel start hfuel
    obtain ⟨f, rfl⟩ : ∃ f, fuel = f + 1 := ⟨fuel - 1, by omega⟩
    refine ⟨false, start, 0, ?_, ?_, le_rfl, by omega, le_rfl, by simp⟩
    · simp [search_for_type_log]
    · simp [search_for_type_log, comparisons]
  | succ b ih =>
    intro fuel start hfuel
    obtain ⟨f, rfl⟩ : ∃ f, fuel = f + 1 := ⟨fuel - 1, by omega⟩
    have hpos : (2 * ((b + 1 : Nat) : Int) = -1 ∨ 2 * ((b + 1 : Nat) : Int) > 0) := by
      right; push_cast; omega
    have hdec : (if 2 * ((b + 1 : Nat) : Int) ≠ -1 then 2 * ((b + 1 : Nat) : Int) - 2
        else 2 * ((b + 1 : Nat) : Int)) = 2 * (b : Int) := by
      push_cast; split_ifs <;> omega
    rw [search_for_type_log, if_pos hpos]
    by_cases hm : rt.gc_managed_addr_p start = true
    · rw [if_pos hm]
      by_cases hw : (rt.widetag_of (read_word rt m start) : Int) = type
      · simp only [hw, if_true, hdec]
        refine ⟨true, start, 2 * (b : Int), rfl, ?_, le_rfl, by omega, by omega, by
          push_cast; omega⟩
        rw [comparisons_managed, comparisons_word]
        simp [comparisons]
      · simp only [hw, if_false, hdec]
        obtain ⟨found, cursor, budget, hres, hcmp, hlo, hhi, hb0, hb1⟩ :=
          ih f (start + 2 * rt.N_WORD_BYTES) (by omega)
        refine ⟨found, cursor, budget, hres, ?_, by omega, ?_, hb0, by push_cast; omega⟩
        · rw [comparisons_managed, comparisons_word]
          omega
        · have e : start + 2 * (b + 1) * rt.N_WORD_BYTES
              = start + 2 * rt.N_WORD_BYTES + 2 * b * rt.N_WORD_BYTES := by ring
          rw [e]; exact hhi
    · rw [if_neg hm]
      refine ⟨false, start, 2 * ((b + 1 : Nat) : Int), rfl, ?_, le_rfl, by omega, by
        push_cast; omega, le_rfl⟩
      simp [comparisons]

/-- C5, the code at budget 1: the decrement by 2 turns the budget 1 into -1, the
unbounded sentinel, so the scan goes on.  On the six cells, with `count = 1`,
it performs four comparisons (more than one, the ceiling of 1/2), advances
the cursor by six words and returns true with the budget at -1. -/
theorem search_for_type_odd_budget_overrun :
    search_for_type_log demo_runtime six_cells 45 10 4096 1
      = ([Access.managed 4096 true, Access.word 4096, Access.managed 4112 true,
          Access.word 4112, Access.managed 4128 true, Access.word 4128,
          Access.managed 4144 true, Access.word 4144],
         some (true, 4144, -1)) ∧
    comparisons (search_for_type_log demo_runtime six_cells 45 10 4096 1).1 = 4 := by
  constructor <;> decide

/-- With an odd budget the scan is not bounded by the budget at all: where every
address is managed and no cell carries the widetag, it does not return,
whatever the fuel. -/
theorem search_for_type_odd_budget_diverges (rt : Runtime) (m : Memory) (type : Int)
    (hman : ∀ a, rt.gc_managed_addr_p a = true)
    (hmiss : ∀ a, (rt.widetag_of (read_word rt m a) : Int) ≠ type) :
    ∀ (fuel start : Nat) (count : Int), (count = -1 ∨ (0 < count ∧ count % 2 = 1)) →
      search_for_type rt m type fuel start count = none := by
  intro fuel
  induction fuel with
  | zero => intro start count _; rfl
  | succ fuel ih =>
    intro start count hc
    have hc0 : count = -1 ∨ count > 0 := by
      rcases hc with hc | hc
      · exact Or.inl hc
      · exact Or.inr hc.1
    rw [search_for_type_step rt m type fuel start count hc0 (hman _) (hmiss _)]
    apply ih
    rcases hc with hc | hc
    · left; simp [hc]
    · by_cases h1 : count = 1
      · left; simp [h1]
      · right; split_ifs <;> omega

/-- C6: every word that `search_for_type` reads is read at an address for which
the region test, evaluated as the step just before the read, returned true;
the results recorded for the region test are those of `gc_managed_addr_p`;
nothing but words is read; and no word is read when the initial cursor is not
managed. -/
theorem search_for_type_reads_checked (rt : Runtime) (m : Memory) (type : Int) :
    ∀ (fuel start : Nat) (count : Int),
      (∀ i a, (search_for_type_log rt m type fuel start count).1[i]? = some (Access.word a) →
        rt.gc_managed_addr_p a = true ∧
        ∃ j, i = j + 1 ∧
          (search_for_type_log rt m type fuel start count).1[j]?
            = some (Access.managed a true)) ∧
      (∀ e, e ∈ (search_for_type_log rt m type fuel start count).1 →
        (∃ a, e = Access.word a) ∨ ∃ a, e = Access.managed a (rt.gc_managed_addr_p a)) ∧
      (rt.gc_managed_addr_p start = false →
        ∀ a, Access.word a ∉ (search_for_type_log rt m type fuel start count).1) := by
  intro fuel
  induction fuel with
  | zero =>
    intro start count
    simp [search_for_type_log]
  | succ fuel ih =>
    intro start count
    rw [search_for_type_log]
    by_cases h1 : count = -1 ∨ count > 0
    · rw [if_pos h1]
      by_cases h2 : rt.gc_managed_addr_p start = true
      · rw [if_pos h2]
        by_cases h3 : (rt.widetag_of (read_word rt m start) : Int) = type
        · simp only [h3, if_true]
          refine ⟨?_, ?_, ?_⟩
          · intro i a hi
            match i, hi with
            | 0, hi => simp at hi
            | 1, hi =>
              simp only [List.getElem?_cons_succ, List.getElem?_cons_zero, Option.some.injEq,
                Access.word.injEq] at hi
              subst hi
              exact ⟨h2, 0, rfl, rfl⟩
            | i + 2, hi => simp at hi
          · intro e he
            simp only [List.mem_cons, List.mem_singleton, List.not_mem_nil, or_false] at he
            rcases he with rfl | rfl
            · exact Or.inr ⟨start, by rw [h2]⟩
            · exact Or.inl ⟨start, rfl⟩
          · intro hf; rw [h2] at hf; exact absurd hf (by simp)
        · simp only [h3, if_false]
          obtain ⟨ih1, ih2, -⟩ := ih (start + 2 * rt.N_WORD_BYTES)
            (if count ≠ -1 then count - 2 else count)
          refine ⟨?_, ?_, ?_⟩
          · intro i a hi
            match i, hi with
            | 0, hi => simp at hi
            | 1, hi =>
              simp only [List.getElem?_cons_succ, List.getElem?_cons_zero, Option.some.injEq,
                Access.word.injEq] at hi
              subst hi
              exact ⟨h2, 0, rfl, rfl⟩
            | i + 2, hi =>
              simp only [List.getElem?_cons_succ] at hi
              obtain ⟨hm, j, hj, hjm⟩ := ih1 i a hi
              refine ⟨hm, j + 2, by omega, ?_⟩
              simp only [List.getElem?_cons_succ]
              exact hjm
          · intro e he
            simp only [List.mem_cons] at he
            rcases he with rfl | rfl | he
            · exact Or.inr ⟨start, by rw [h2]⟩
            · exact Or.inl ⟨start, rfl⟩
            · exact ih2 e he
          · intro hf; rw [h2] at hf; exact absurd hf (by simp)
      · rw [if_neg h2]
        have h2f : rt.gc_managed_addr_p start = false := by simpa using h2
        refine ⟨?_, ?_, ?_⟩
        · intro i a hi
          match i, hi with
          | 0, hi => simp at hi
          | i + 1, hi => simp at hi
        · intro e he
          simp only [List.mem_singleton] at he
          subst he
          exact Or.inr ⟨start, by rw [h2f]⟩
        · intro _ a ha
          simp at ha
    · rw [if_neg h1]
      simp

/-- Witness for C6 on the six cells: the word read at 4112, the fourth step of
the unbounded scan, follows the region test of 4112. -/
theorem search_for_type_reads_checked_witness :
    (search_for_type_log demo_runtime six_cells 45 10 4096 (-1)).1[3]?
      = some (Access.word 4112) ∧
    (demo_runtime.gc_managed_addr_p 4112 = true ∧
      ∃ j, 3 = j + 1 ∧
        (search_for_type_log demo_runtime six_cells 45 10 4096 (-1)).1[j]?
          = some (Access.managed 4112 true)) :=
  ⟨by decide,
   (search_for_type_reads_checked demo_runtime six_cells 45 10 4096 (-1)).1 3 4112 (by decide)⟩

/-! ## Theorems about the comparators -/

/-- The function `strcmp` returns 0 exactly when memory and target agree on
every byte up to and including the target's first NUL. -/
theorem strcmp_eq_zero_iff (m : Memory) :
    ∀ (name : CString) (a : Nat),
      strcmp m a name = 0 ↔ ∀ i, i ≤ strlen name → m (a + i) = name.getD i 0 := by
  intro name
  induction name with
  | nil =>
    intro a
    simp only [strcmp, strlen, Nat.le_zero, forall_eq, Nat.add_zero, List.getD_nil]
    rw [Fin.ext_iff]
    simp
  | cons c cs ih =>
    intro a
    rw [strcmp]
    by_cases h1 : (m a).val = c.val
    · have hmc : m a = c := Fin.ext h1
      by_cases h2 : c.val = 0
      · simp only [h1, ne_eq, not_true_eq_false, if_false, h2, if_true, strlen, true_iff]
        intro i hi
        have : i = 0 := by omega
        subst this
        simpa using hmc
      · simp only [h1, ne_eq, not_true_eq_false, if_false, h2, strlen]
        rw [ih (a + 1)]
        constructor
        · intro h i hi
          cases i with
          | zero => simpa using hmc
          | succ i =>
            have := h i (by omega)
            have e : a + (i + 1) = a + 1 + i := by omega
            rw [e]
            simpa using this
        · intro h i hi
          have := h (i + 1) (by omega)
          have e : a + (i + 1) = a + 1 + i := by omega
          rw [e] at this
          simpa using this
    · simp only [ne_eq, h1, not_false_eq_true, if_true]
      constructor
      · intro h
        exfalso
        omega
      · intro h
        exfalso
        apply h1
        have := h 0 (Nat.zero_le _)
        simp only [Nat.add_zero, List.getD_cons_zero] at this
        rw [this]

/-- The function `strcmp_ucs4_ascii` returns 0 when the units agree with the
target on every index up to and including the target's first NUL. -/
theorem strcmp_ucs4_ascii_eq_zero_of_agree (rt : Runtime) (m : Memory) :
    ∀ (name : CString) (a : Nat),
      (∀ i, i ≤ strlen name → read_u32 m (a + 4 * i) = (name.getD i 0).val) →
      strcmp_ucs4_ascii rt m a name = 0 := by
  intro name
  induction name with
  | nil =>
    intro a h
    have := h 0 (Nat.zero_le _)
    simp only [Nat.mul_zero, Nat.add_zero, List.getD_nil] at this
    simp [strcmp_ucs4_ascii, this]
  | cons c cs ih =>
    intro a h
    have h0 := h 0 (Nat.zero_le _)
    simp only [Nat.mul_zero, Nat.add_zero, List.getD_cons_zero] at h0
    rw [strcmp_ucs4_ascii, if_pos h0]
    by_cases h2 : c.val = 0
    · rw [if_pos h2]
    · rw [if_neg h2]
      apply ih
      intro i hi
      have := h (i + 1) (by simp only [strlen, h2, if_false]; omega)
      have e : a + 4 * (i + 1) = a + 4 + 4 * i := by omega
      rw [e] at this
      simpa using this

/-- The instrumented `strcmp` computes the same result. -/
theorem strcmp_log_result (m : Memory) :
    ∀ (name : CString) (a : Nat), (strcmp_log m a name).2 = strcmp m a name := by
  intro name
  induction name with
  | nil => intro a; rfl
  | cons c cs ih =>
    intro a
    rw [strcmp_log, strcmp]
    by_cases h1 : (m a).val ≠ c.val
    · rw [if_pos h1, if_pos h1]
    · rw [if_neg h1, if_neg h1]
      by_cases h2 : c.val = 0
      · rw [if_pos h2, if_pos h2]
      · rw [if_neg h2, if_neg h2]
        exact ih _

/-- The instrumented `strcmp_ucs4_ascii` computes the same result. -/
theorem strcmp_ucs4_ascii_log_result (rt : Runtime) (m : Memory) :
    ∀ (name : CString) (a : Nat),
      (strcmp_ucs4_ascii_log rt m a name).2 = strcmp_ucs4_ascii rt m a name := by
  intro name
  induction name with
  | nil =>
    intro a
    rw [strcmp_ucs4_ascii_log, strcmp_ucs4_ascii]
    by_cases h : read_u32 m a = 0
    · rw [if_pos h, if_pos h]
    · rw [if_neg h, if_neg h]
  | cons c cs ih =>
    intro a
    rw [strcmp_ucs4_ascii_log, strcmp_ucs4_ascii]
    by_cases h1 : read_u32 m a = c.val
    · rw [if_pos h1, if_pos h1]
      by_cases h2 : c.val = 0
      · rw [if_pos h2, if_pos h2]
      · rw [if_neg h2, if_neg h2]
        exact ih _
    · rw [if_neg h1, if_neg h1]

/-- The function `strcmp` reads bytes of the string in memory at indices up to
the target's first NUL, and no other memory. -/
theorem strcmp_log_reads (m : Memory) :
    ∀ (name : CString) (a : Nat) (e : Access), e ∈ (strcmp_log m a name).1 →
      ∃ i, i ≤ strlen name ∧ e = Access.byte (a + i) := by
  intro name
  induction name with
  | nil =>
    intro a e he
    simp only [strcmp_log, List.mem_singleton] at he
    exact ⟨0, Nat.zero_le _, by simpa using he⟩
  | cons c cs ih =>
    intro a e he
    rw [strcmp_log] at he
    by_cases h1 : (m a).val ≠ c.val
    · rw [if_pos h1] at he
      simp only [List.mem_singleton] at he
      exact ⟨0, Nat.zero_le _, by simpa using he⟩
    · rw [if_neg h1] at he
      by_cases h2 : c.val = 0
      · rw [if_pos h2] at he
        simp only [List.mem_singleton] at he
        exact ⟨0, Nat.zero_le _, by simpa using he⟩
      · rw [if_neg h2] at he
        simp only [List.mem_cons] at he
        rcases he with he | he
        · exact ⟨0, Nat.zero_le _, by simpa using he⟩
        · obtain ⟨i, hi, hie⟩ := ih (a + 1) e he
          refine ⟨i + 1, by simp only [strlen, h2, if_false]; omega, ?_⟩
          rw [hie]
          congr 1
          omega

/-- The function `strcmp_ucs4_ascii` reads units of the string in memory at
indices up to the target's first NUL, and no other memory. -/
theorem strcmp_ucs4_ascii_log_reads (rt : Runtime) (m : Memory) :
    ∀ (name : CString) (a : Nat) (e : Access), e ∈ (strcmp_ucs4_ascii_log rt m a name).1 →
      ∃ i, i ≤ strlen name ∧ e = Access.unit32 (a + 4 * i) := by
  intro name
  induction name with
  | nil =>
    intro a e he
    rw [strcmp_ucs4_ascii_log] at he
    refine ⟨0, Nat.zero_le _, ?_⟩
    by_cases h : read_u32 m a = 0
    · rw [if_pos h] at he; simpa using he
    · rw [if_neg h] at he; simpa using he
  | cons c cs ih =>
    intro a e he
    rw [strcmp_ucs4_ascii_log] at he
    by_cases h1 : read_u32 m a = c.val
    · rw [if_pos h1] at he
      by_cases h2 : c.val = 0
      · rw [if_pos h2] at he
        exact ⟨0, Nat.zero_le _, by simpa using he⟩
      · rw [if_neg h2] at he
        simp only [List.mem_cons] at he
        rcases he with he | he
        · exact ⟨0, Nat.zero_le _, by simpa using he⟩
        · obtain ⟨i, hi, hie⟩ := ih (a + 4) e he
          refine ⟨i + 1, by simp only [strlen, h2, if_false]; omega, ?_⟩
          rw [hie]
          congr 1
          omega
    · rw [if_neg h1] at he
      exact ⟨0, Nat.zero_le _, by simpa using he⟩

/-! ## The instrumented symbol search computes the same results -/

/-- Result of the first disjunct of the name test. -/
theorem string_test_log_narrow (rt : Runtime) (m : Memory) (name : CString)
    (namelen v : Nat) :
    (string_test_log rt m name namelen v false).2
      = (decide (rt.widetag_of (read_word rt m v) = rt.SIMPLE_BASE_STRING_WIDETAG)
          && decide (read_word rt m (vector_length_addr rt v) = namelen)
          && decide (strcmp m (vector_data_addr rt v) name = 0)) := by
  unfold string_test_log
  by_cases h1 : rt.widetag_of (read_word rt m v) = rt.SIMPLE_BASE_STRING_WIDETAG
  · by_cases h2 : read_word rt m (vector_length_addr rt v) = namelen
    · simp [h1, h2, strcmp_log_result]
    · simp [h1, h2]
  · simp [h1]

/-- Result of the second disjunct of the name test. -/
theorem string_test_log_wide (rt : Runtime) (m : Memory) (name : CString)
    (namelen v : Nat) :
    (string_test_log rt m name namelen v true).2
      = (decide (rt.widetag_of (read_word rt m v) = rt.SIMPLE_CHARACTER_STRING_WIDETAG)
          && decide (read_word rt m (vector_length_addr rt v) = namelen)
          && decide (strcmp_ucs4_ascii rt m (vector_data_addr rt v) name = 0)) := by
  unfold string_test_log
  by_cases h1 : rt.widetag_of (read_word rt m v) = rt.SIMPLE_CHARACTER_STRING_WIDETAG
  · by_cases h2 : read_word rt m (vector_length_addr rt v) = namelen
    · simp [h1, h2, strcmp_ucs4_ascii_log_result]
    · simp [h1, h2]
  · simp [h1]

/-- The instrumented name test computes the same result. -/
theorem name_matches_log_result (rt : Runtime) (m : Memory) (name : CString)
    (namelen v : Nat) :
    (name_matches_log rt m name namelen v).2 = name_matches rt m name namelen v := by
  unfold name_matches_log name_matches
  by_cases hm : rt.gc_managed_addr_p v = true
  · rw [if_pos hm, hm, Bool.true_and]
    by_cases hn : (string_test_log rt m name namelen v false).2 = true
    · rw [if_pos hn]
      rw [string_test_log_narrow] at hn
      simp only [hn, Bool.true_or]
    · rw [if_neg hn]
      have hn2 : (string_test_log rt m name namelen v false).2 = false := by simpa using hn
      rw [string_test_log_narrow] at hn2
      by_cases hu : rt.sb_unicode = true
      · rw [if_pos hu]
        simp only [string_test_log_wide, hn2, Bool.false_or, hu, Bool.true_and, Bool.and_assoc]
      · rw [if_neg hu]
        have hu2 : rt.sb_unicode = false := by simpa using hu
        simp only [hn2, hu2, Bool.false_and, Bool.or_false]
  · rw [if_neg hm]
    have hm2 : rt.gc_managed_addr_p v = false := by simpa using hm
    simp only [hm2, Bool.false_and]

/-- The instrumented candidate test computes the same result. -/
theorem candidate_matches_log_result (rt : Runtime) (m : Memory) (name : CString)
    (namelen where_ word : Nat) :
    (candidate_matches_log rt m name namelen where_ word).2
      = candidate_matches rt m name namelen where_ word := by
  unfold candidate_matches_log candidate_matches
  by_cases h1 : rt.widetag_of word = rt.SYMBOL_WIDETAG
  · by_cases h2 : rt.lowtag_of (read_word rt m (symbol_name_addr rt where_))
        = rt.OTHER_POINTER_LOWTAG
    · rw [if_pos h1, if_pos h2, if_pos ⟨h1, h2⟩]
      exact name_matches_log_result rt m name namelen _
    · rw [if_pos h1, if_neg h2, if_neg (fun h => h2 h.2)]
  · rw [if_neg h1, if_neg (fun h => h1 h.1)]

/-- The instrumented loop computes the same result. -/
theorem search_for_symbol_loop_log_result (rt : Runtime) (m : Memory) (name : CString)
    (namelen limit : Nat) :
    ∀ fuel where_,
      (search_for_symbol_loop_log rt m name namelen limit fuel where_).2
        = search_for_symbol_loop rt m name namelen limit fuel where_ := by
  intro fuel
  induction fuel with
  | zero => intro where_; rfl
  | succ fuel ih =>
    intro where_
    rw [search_for_symbol_loop_log, search_for_symbol_loop]
    by_cases h1 : where_ < limit
    · rw [if_pos h1, if_pos h1]
      simp only [candidate_matches_log_result]
      by_cases h2 : candidate_matches rt m name namelen where_ (read_word rt m where_) = true
      · rw [if_pos h2, if_pos h2]
      · rw [if_neg h2, if_neg h2]
        exact ih _
    · rw [if_neg h1, if_neg h1]

/-- The instrumented `search_for_symbol` computes the same result. -/
theorem search_for_symbol_log_result (rt : Runtime) (m : Memory) (name : CString)
    (start end_ fuel : Nat) :
    (search_for_symbol_log rt m name start end_ fuel).2
      = search_for_symbol rt m name start end_ fuel :=
  search_for_symbol_loop_log_result rt m name _ end_ fuel start

/-! ## The walk -/

/-- Every object of the walk lies in the range. -/
theorem walk_mem_bounds (rt : Runtime) (m : Memory) (limit : Nat) :
    ∀ fuel where_ o, o ∈ walk rt m limit fuel where_ → where_ ≤ o ∧ o < limit := by
  intro fuel
  induction fuel with
  | zero => intro where_ o h; simp [walk] at h
  | succ fuel ih =>
    intro where_ o h
    rw [walk] at h
    by_cases h1 : where_ < limit
    · rw [if_pos h1] at h
      simp only [List.mem_cons] at h
      rcases h with rfl | h
      · exact ⟨le_rfl, h1⟩
      · have := ih _ _ h
        exact ⟨by omega, this.2⟩
    · rw [if_neg h1] at h
      simp at h

/-- The first object of a list that passes a test which exactly one of its
objects passes is that object. -/
theorem find_unique (p : Nat → Bool) :
    ∀ (l : List Nat) (s : Nat), s ∈ l → p s = true →
      (∀ o, o ∈ l → o ≠ s → p o = false) → l.find? p = some s := by
  intro l
  induction l with
  | nil => intro s hs; simp at hs
  | cons x xs ih =>
    intro s hs hp hothers
    by_cases hx : x = s
    · subst hx
      simp [List.find?, hp]
    · have hpx : p x = false := hothers x (List.mem_cons_self _ _) hx
      have hs2 : s ∈ xs := by
        rcases List.mem_cons.mp hs with h | h
        · exact absurd h.symm hx
        · exact h
      simp only [List.find?, hpx]
      exact ih s hs2 hp (fun o ho => hothers o (List.mem_cons_of_mem _ ho))

/-- The loop returns the first object of the walk that passes the test, or 0
when none does, provided every object of the walk has a size of at least one
word and the fuel exceeds the length of the range. -/
theorem search_for_symbol_loop_eq_find (rt : Runtime) (m : Memory) (name : CString)
    (namelen limit : Nat) (hW : 0 < rt.N_WORD_BYTES) :
    ∀ fuel where_, limit - where_ < fuel →
      (∀ o, o ∈ walk rt m limit fuel where_ → 1 ≤ rt.OBJECT_SIZE m (read_word rt m o) o) →
      search_for_symbol_loop rt m name namelen limit fuel where_
        = some (((walk rt m limit fuel where_).find?
            (fun o => candidate_matches rt m name namelen o (read_word rt m o))).getD 0) := by
  intro fuel
  induction fuel with
  | zero => intro where_ h; omega
  | succ fuel ih =>
    intro where_ hfuel hsize
    rw [search_for_symbol_loop]
    by_cases h1 : where_ < limit
    · have hw : walk rt m limit (fuel + 1) where_ = where_ :: walk rt m limit fuel
          (where_ + rt.OBJECT_SIZE m (read_word rt m where_) where_ * rt.N_WORD_BYTES) := by
        rw [walk, if_pos h1]
      rw [if_pos h1, hw]
      rw [hw] at hsize
      by_cases h2 : candidate_matches rt m name namelen where_ (read_word rt m where_) = true
      · simp only [h2, if_true, List.find?, Option.getD_some]
      · have h2f : candidate_matches rt m name namelen where_ (read_word rt m where_) = false := by
          simpa using h2
        simp only [h2f, Bool.false_eq_true, if_false, List.find?]
        have hs := hsize where_ (List.mem_cons_self _ _)
        have hadv : 1 ≤ rt.OBJECT_SIZE m (read_word rt m where_) where_ * rt.N_WORD_BYTES :=
          Nat.mul_le_mul hs hW
        exact ih _ (by omega) (fun o ho => hsize o (List.mem_cons_of_mem _ ho))
    · have hw : walk rt m limit (fuel + 1) where_ = [] := by
        rw [walk, if_neg h1]
      rw [if_neg h1, hw]
      rfl

/-- When the loop returns 0 from a cursor other than 0, the header of every
object of the walk has been read. -/
theorem search_for_symbol_loop_visits_all (rt : Runtime) (m : Memory) (name : CString)
    (namelen limit : Nat) :
    ∀ fuel where_, 0 < where_ →
      search_for_symbol_loop rt m name namelen limit fuel where_ = some 0 →
      ∀ o, o ∈ walk rt m limit fuel where_ →
        Access.word o ∈ (search_for_symbol_loop_log rt m name namelen limit fuel where_).1 := by
  intro fuel
  induction fuel with
  | zero => intro where_ _ h; simp [search_for_symbol_loop] at h
  | succ fuel ih =>
    intro where_ hpos hres o ho
    rw [search_for_symbol_loop] at hres
    rw [walk] at ho
    rw [search_for_symbol_loop_log]
    by_cases h1 : where_ < limit
    · rw [if_pos h1] at hres ho
      rw [if_pos h1]
      simp only [candidate_matches_log_result]
      by_cases h2 : candidate_matches rt m name namelen where_ (read_word rt m where_) = true
      · rw [if_pos h2] at hres
        simp only [Option.some.injEq] at hres
        omega
      · rw [if_neg h2] at hres
        rw [if_neg h2]
        simp only [List.mem_cons] at ho
        rcases ho with rfl | ho
        · exact List.mem_cons_self _ _
        · apply List.mem_cons_of_mem
          apply List.mem_append_right
          exact ih _ (by omega) hres o ho
    · rw [if_neg h1] at ho
      simp at ho

/-- The length of a target without NUL bytes is the number of its bytes. -/
theorem strlen_of_nul_free : ∀ (name : CString), (∀ c, c ∈ name → c ≠ 0) →
    strlen name = name.length := by
  intro name
  induction name with
  | nil => intro _; rfl
  | cons c cs ih =>
    intro h
    have hc : c.val ≠ 0 := by
      intro h0
      exact h c (List.mem_cons_self _ _) (Fin.ext h0)
    simp only [strlen, hc, if_false, List.length_cons]
    rw [ih (fun d hd => h d (List.mem_cons_of_mem _ hd))]

/-! ## Theorems about `search_for_symbol` -/

/-- C1: in a range laid out as consecutive objects of at least one word each,
for a target without NUL bytes, if the object `s` of the walk is a symbol whose
name slot is an `OTHER_POINTER` tagged reference to a managed base string `v`
with length field `make_fixnum n`, whose first `n` bytes are the target's and
whose byte `n` is NUL (`n` the number of target bytes), and no other object of
the walk passes the symbol test, then `search_for_symbol` returns `s`. -/
theorem search_for_symbol_finds_unique (rt : Runtime) (m : Memory) (name : CString)
    (start end_ fuel s v : Nat)
    (hW : 0 < rt.N_WORD_BYTES)
    (hfuel : end_ - start < fuel)
    (hsize : ∀ o, o ∈ walk rt m end_ fuel start → 1 ≤ rt.OBJECT_SIZE m (read_word rt m o) o)
    (hnul : ∀ c, c ∈ name → c ≠ 0)
    (hs : s ∈ walk rt m end_ fuel start)
    (hsym : rt.widetag_of (read_word rt m s) = rt.SYMBOL_WIDETAG)
    (htag : rt.lowtag_of (read_word rt m (symbol_name_addr rt s)) = rt.OTHER_POINTER_LOWTAG)
    (hv : v = rt.VECTOR (read_word rt m (symbol_name_addr rt s)))
    (hman : rt.gc_managed_addr_p v = true)
    (hbase : rt.widetag_of (read_word rt m v) = rt.SIMPLE_BASE_STRING_WIDETAG)
    (hlen : read_word rt m (vector_length_addr rt v) = rt.make_fixnum name.length)
    (hbytes : ∀ i, i < name.length → m (vector_data_addr rt v + i) = name.getD i 0)
    (hterm : m (vector_data_addr rt v + name.length) = 0)
    (hothers : ∀ o, o ∈ walk rt m end_ fuel start → o ≠ s → object_matches rt m name o = false) :
    search_for_symbol rt m name start end_ fuel = some s := by
  have hstrlen := strlen_of_nul_free name hnul
  have hcmp : strcmp m (vector_data_addr rt v) name = 0 := by
    rw [strcmp_eq_zero_iff]
    intro i hi
    rw [hstrlen] at hi
    rcases Nat.lt_or_eq_of_le hi with h | h
    · exact hbytes i h
    · subst h
      rw [hterm, List.getD_eq_default _ _ le_rfl]
  have hmatch : candidate_matches rt m name (rt.make_fixnum (strlen name)) s (read_word rt m s)
      = true := by
    rw [candidate_matches, if_pos ⟨hsym, htag⟩, ← hv, name_matches, hman, hstrlen]
    simp [hbase, hlen, hcmp]
  have hf : (walk rt m end_ fuel start).find?
      (fun o => candidate_matches rt m name (rt.make_fixnum (strlen name)) o (read_word rt m o))
      = some s := find_unique _ _ s hs hmatch hothers
  rw [search_for_symbol, search_for_symbol_loop_eq_find rt m name _ end_ hW fuel start hfuel hsize,
    hf]
  rfl

/-- Witness for C1: the symbols `A` and `TARGET` with a vector between them;
the search for `TARGET` returns the third object, at 4176. -/
theorem search_for_symbol_finds_unique_witness :
    search_for_symbol demo_runtime three_objects target_name 4096 4224 129 = some 4176 :=
  search_for_symbol_finds_unique demo_runtime three_objects target_name 4096 4224 129 4176 4256
    (by decide) (by decide) (by decide) (by simp [target_name]) (by decide) (by decide)
    (by decide) (by decide) (by decide) (by decide) (by decide) (by decide) (by decide)
    (by decide)

/-- C2: in a range starting above address 0 whose objects have at least one
word each, `search_for_symbol` returns, and it returns the not-found value 0
exactly when no object of the walk passes the symbol test (a symbol with an
`OTHER_POINTER` tagged, managed name whose length and contents match the
target); it returns 0 when `start ≥ end`; and when it returns 0 the header of
every object of the walk has been read. -/
theorem search_for_symbol_not_found_iff (rt : Runtime) (m : Memory) (name : CString)
    (start end_ fuel : Nat)
    (hW : 0 < rt.N_WORD_BYTES)
    (hstart : 0 < start)
    (hfuel : end_ - start < fuel)
    (hsize : ∀ o, o ∈ walk rt m end_ fuel start → 1 ≤ rt.OBJECT_SIZE m (read_word rt m o) o) :
    (∃ r, search_for_symbol rt m name start end_ fuel = some r) ∧
    (search_for_symbol rt m name start end_ fuel = some 0 ↔
      ∀ o, o ∈ walk rt m end_ fuel start → object_matches rt m name o = false) ∧
    (end_ ≤ start → search_for_symbol rt m name start end_ fuel = some 0) ∧
    (search_for_symbol rt m name start end_ fuel = some 0 →
      ∀ o, o ∈ walk rt m end_ fuel start →
        Access.word o ∈ (search_for_symbol_log rt m name start end_ fuel).1) := by
  have hfind := search_for_symbol_loop_eq_find rt m name (rt.make_fixnum (strlen name)) end_ hW
    fuel start hfuel hsize
  refine ⟨⟨_, hfind⟩, ?_, ?_, ?_⟩
  · rw [search_for_symbol, hfind]
    constructor
    · intro h o ho
      cases hf : (walk rt m end_ fuel start).find?
          (fun o => candidate_matches rt m name (rt.make_fixnum (strlen name)) o
            (read_word rt m o)) with
      | none =>
        have := List.find?_eq_none.mp hf o ho
        simpa [object_matches] using this
      | some r =>
        rw [hf] at h
        simp only [Option.getD_some, Option.some.injEq] at h
        have hr := walk_mem_bounds rt m end_ fuel start r (List.mem_of_find?_eq_some hf)
        omega
    · intro h
      have : (walk rt m end_ fuel start).find?
          (fun o => candidate_matches rt m name (rt.make_fixnum (strlen name)) o
            (read_word rt m o)) = none := by
        rw [List.find?_eq_none]
        intro o ho
        have := h o ho
        simpa [object_matches] using this
      rw [this]
      rfl
  · intro hle
    obtain ⟨f, rfl⟩ : ∃ f, fuel = f + 1 := ⟨fuel - 1, by omega⟩
    rw [search_for_symbol, search_for_symbol_loop, if_neg (by omega)]
  · intro h
    exact search_for_symbol_loop_visits_all rt m name _ end_ fuel start hstart h

/-- Witness for C2: the search for `MISSING` over the three objects returns 0
after reading the three headers. -/
theorem search_for_symbol_not_found_iff_witness :
    search_for_symbol demo_runtime three_objects missing_name 4096 4224 129 = some 0 ∧
    walk demo_runtime three_objects 4224 129 4096 = [4096, 4144, 4176] ∧
    ∀ o, o ∈ walk demo_runtime three_objects 4224 129 4096 →
      Access.word o ∈ (search_for_symbol_log demo_runtime three_objects missing_name
        4096 4224 129).1 :=
  have h := search_for_symbol_not_found_iff demo_runtime three_objects missing_name 4096 4224 129
    (by decide) (by decide) (by decide) (by decide)
  have h0 : search_for_symbol demo_runtime three_objects missing_name 4096 4224 129 = some 0 :=
    h.2.1.mpr (by decide)
  ⟨h0, by decide, h.2.2.2 h0⟩

/-- The length of a target with an embedded NUL is the number of bytes before
it. -/
theorem strlen_append_nul : ∀ (pre post : CString), (∀ c, c ∈ pre → c ≠ 0) →
    strlen (pre ++ 0 :: post) = pre.length := by
  intro pre
  induction pre with
  | nil => intro post _; simp [strlen]
  | cons c cs ih =>
    intro post h
    have hc : c.val ≠ 0 := by
      intro h0
      exact h c (List.mem_cons_self _ _) (Fin.ext h0)
    have ih2 := ih post (fun d hd => h d (List.mem_cons_of_mem _ hd))
    rw [List.cons_append, strlen, if_neg hc, ih2, List.length_cons]

/-- C9 (legacy truncation): for a target `pre ++ NUL ++ post` with `pre` free of
NUL, `strcmp_ucs4_ascii` returns 0 as soon as the units agree with `pre` and
the unit after them is zero, whatever `post` is and whatever units follow in
memory; and it reads no unit past the one at the index of that NUL. -/
theorem strcmp_ucs4_ascii_stops_at_target_nul (rt : Runtime) (m : Memory) :
    ∀ (pre post : CString) (a : Nat),
      (∀ c, c ∈ pre → c ≠ 0) →
      (∀ i, i < pre.length → read_u32 m (a + 4 * i) = (pre.getD i 0).val) →
      read_u32 m (a + 4 * pre.length) = 0 →
      strcmp_ucs4_ascii rt m a (pre ++ 0 :: post) = 0 ∧
      ∀ e, e ∈ (strcmp_ucs4_ascii_log rt m a (pre ++ 0 :: post)).1 →
        ∃ i, i ≤ pre.length ∧ e = Access.unit32 (a + 4 * i) := by
  intro pre post a hnul hunits hterm
  constructor
  · clear hnul
    induction pre generalizing a with
    | nil =>
      simp only [List.length_nil, Nat.mul_zero, Nat.add_zero] at hterm
      simp [strcmp_ucs4_ascii, hterm]
    | cons c cs ih =>
      have h0 := hunits 0 (by simp)
      simp only [Nat.mul_zero, Nat.add_zero, List.getD_cons_zero] at h0
      rw [List.cons_append, strcmp_ucs4_ascii, if_pos h0]
      by_cases h2 : c.val = 0
      · rw [if_pos h2]
      · rw [if_neg h2]
        apply ih
        · intro i hi
          have := hunits (i + 1) (by simp only [List.length_cons]; omega)
          have e : a + 4 * (i + 1) = a + 4 + 4 * i := by omega
          rw [e] at this
          simpa using this
        · have e : a + 4 * (c :: cs).length = a + 4 + 4 * cs.length := by
            simp only [List.length_cons]; omega
          rw [← e]; exact hterm
  · intro e he
    have := strcmp_ucs4_ascii_log_reads rt m _ a e he
    rw [strlen_append_nul pre post hnul] at this
    exact this

/-- Witness for C9: the units `A`, `B`, 0, 0, 0 of a character string of
declared length 5 against the target bytes `AB\0XY`. -/
theorem strcmp_ucs4_ascii_stops_at_target_nul_witness :
    strcmp_ucs4_ascii demo_runtime wide_ab_padded 4112 ab_nul_xy_name = 0 ∧
    ∀ e, e ∈ (strcmp_ucs4_ascii_log demo_runtime wide_ab_padded 4112 ab_nul_xy_name).1 →
      ∃ i, i ≤ 2 ∧ e = Access.unit32 (4112 + 4 * i) :=
  strcmp_ucs4_ascii_stops_at_target_nul demo_runtime wide_ab_padded [65, 66] [88, 89] 4112
    (by simp) (by decide) (by decide)

/-! ## Two memories -/

/-- The loop returns the same in two memories in which every object of the walk
passes or fails the test alike and, when it fails, has the same size. -/
theorem search_for_symbol_loop_congr (rt : Runtime) (m1 m2 : Memory) (name : CString)
    (namelen limit : Nat) :
    ∀ fuel where_,
      (∀ o, o ∈ walk rt m1 limit fuel where_ →
        candidate_matches rt m1 name namelen o (read_word rt m1 o)
          = candidate_matches rt m2 name namelen o (read_word rt m2 o) ∧
        (candidate_matches rt m1 name namelen o (read_word rt m1 o) = false →
          rt.OBJECT_SIZE m1 (read_word rt m1 o) o = rt.OBJECT_SIZE m2 (read_word rt m2 o) o)) →
      search_for_symbol_loop rt m1 name namelen limit fuel where_
        = search_for_symbol_loop rt m2 name namelen limit fuel where_ := by
  intro fuel
  induction fuel with
  | zero => intro where_ _; rfl
  | succ fuel ih =>
    intro where_ h
    rw [search_for_symbol_loop, search_for_symbol_loop]
    by_cases h1 : where_ < limit
    · have hw : walk rt m1 limit (fuel + 1) where_ = where_ :: walk rt m1 limit fuel
          (where_ + rt.OBJECT_SIZE m1 (read_word rt m1 where_) where_ * rt.N_WORD_BYTES) := by
        rw [walk, if_pos h1]
      rw [hw] at h
      obtain ⟨hsame, hsz⟩ := h where_ (List.mem_cons_self _ _)
      rw [if_pos h1, if_pos h1]
      dsimp only
      rw [← hsame]
      by_cases h2 : candidate_matches rt m1 name namelen where_ (read_word rt m1 where_) = true
      · rw [if_pos h2, if_pos h2]
      · rw [if_neg h2, if_neg h2]
        have h2f : candidate_matches rt m1 name namelen where_ (read_word rt m1 where_) = false := by
          simpa using h2
        rw [← hsz h2f]
        exact ih _ (fun o ho => h o (List.mem_cons_of_mem _ ho))
    · rw [if_neg h1, if_neg h1]

/-- C8: in a unicode build, for a target without NUL bytes, let the symbol `s`
have in memory `m1` a managed base string as its name, with length field
`make_fixnum n`, the target's `n` bytes and a NUL after them, and in memory
`m2` a managed character string, with length field `make_fixnum n`, `n` 32-bit
units equal to the target's bytes and a zero unit after them.  Then `s` passes
the symbol test in both memories, and if every other object of the walk passes
or fails the test alike and has the same size in both memories,
`search_for_symbol` returns the same object in both.  (The target need not be
ASCII for this.) -/
theorem search_for_symbol_wide_as_narrow (rt : Runtime) (m1 m2 : Memory) (name : CString)
    (start end_ fuel s v1 v2 : Nat)
    (hu : rt.sb_unicode = true)
    (hnul : ∀ c, c ∈ name → c ≠ 0)
    (hsym1 : rt.widetag_of (read_word rt m1 s) = rt.SYMBOL_WIDETAG)
    (hsym2 : rt.widetag_of (read_word rt m2 s) = rt.SYMBOL_WIDETAG)
    (htag1 : rt.lowtag_of (read_word rt m1 (symbol_name_addr rt s)) = rt.OTHER_POINTER_LOWTAG)
    (htag2 : rt.lowtag_of (read_word rt m2 (symbol_name_addr rt s)) = rt.OTHER_POINTER_LOWTAG)
    (hv1 : v1 = symbol_name_vector rt m1 s)
    (hv2 : v2 = symbol_name_vector rt m2 s)
    (hman1 : rt.gc_managed_addr_p v1 = true)
    (hman2 : rt.gc_managed_addr_p v2 = true)
    (hbase : rt.widetag_of (read_word rt m1 v1) = rt.SIMPLE_BASE_STRING_WIDETAG)
    (hlen1 : read_word rt m1 (vector_length_addr rt v1) = rt.make_fixnum name.length)
    (hbytes : ∀ i, i < name.length → m1 (vector_data_addr rt v1 + i) = name.getD i 0)
    (hterm1 : m1 (vector_data_addr rt v1 + name.length) = 0)
    (hchar : rt.widetag_of (read_word rt m2 v2) = rt.SIMPLE_CHARACTER_STRING_WIDETAG)
    (hlen2 : read_word rt m2 (vector_length_addr rt v2) = rt.make_fixnum name.length)
    (hunits : ∀ i, i < name.length →
      read_u32 m2 (vector_data_addr rt v2 + 4 * i) = (name.getD i 0).val)
    (hterm2 : read_u32 m2 (vector_data_addr rt v2 + 4 * name.length) = 0)
    (hrest : ∀ o, o ∈ walk rt m1 end_ fuel start → o ≠ s →
      object_matches rt m1 name o = object_matches rt m2 name o ∧
      rt.OBJECT_SIZE m1 (read_word rt m1 o) o = rt.OBJECT_SIZE m2 (read_word rt m2 o) o) :
    object_matches rt m1 name s = true ∧ object_matches rt m2 name s = true ∧
    search_for_symbol rt m1 name start end_ fuel = search_for_symbol rt m2 name start end_ fuel := by
  have hstrlen := strlen_of_nul_free name hnul
  have hcmp1 : strcmp m1 (vector_data_addr rt v1) name = 0 := by
    rw [strcmp_eq_zero_iff]
    intro i hi
    rw [hstrlen] at hi
    rcases Nat.lt_or_eq_of_le hi with h | h
    · exact hbytes i h
    · subst h
      rw [hterm1, List.getD_eq_default _ _ le_rfl]
  have hcmp2 : strcmp_ucs4_ascii rt m2 (vector_data_addr rt v2) name = 0 := by
    apply strcmp_ucs4_ascii_eq_zero_of_agree
    intro i hi
    rw [hstrlen] at hi
    rcases Nat.lt_or_eq_of_le hi with h | h
    · exact hunits i h
    · subst h
      rw [hterm2, List.getD_eq_default _ _ le_rfl]
      rfl
  have hmatch1 : object_matches rt m1 name s = true := by
    rw [object_matches, candidate_matches, if_pos ⟨hsym1, htag1⟩]
    rw [symbol_name_vector] at hv1
    rw [← hv1, name_matches, hman1, hstrlen]
    simp [hbase, hlen1, hcmp1]
  have hmatch2 : object_matches rt m2 name s = true := by
    rw [object_matches, candidate_matches, if_pos ⟨hsym2, htag2⟩]
    rw [symbol_name_vector] at hv2
    rw [← hv2, name_matches, hman2, hstrlen]
    simp [hu, hchar, hlen2, hcmp2]
  refine ⟨hmatch1, hmatch2, ?_⟩
  apply search_for_symbol_loop_congr
  intro o ho
  by_cases hos : o = s
  · subst hos
    have e1 : candidate_matches rt m1 name (rt.make_fixnum (strlen name)) o (read_word rt m1 o)
        = true := hmatch1
    have e2 : candidate_matches rt m2 name (rt.make_fixnum (strlen name)) o (read_word rt m2 o)
        = true := hmatch2
    rw [e1, e2]
    exact ⟨rfl, fun h => absurd h (by simp)⟩
  · obtain ⟨hm, hsz⟩ := hrest o ho hos
    exact ⟨hm, fun _ => hsz⟩

/-- Witness for C8: the symbol named `BAR`, with its name as a base string and
as a character string; the search returns the symbol, at 4096, in both. -/
theorem search_for_symbol_wide_as_narrow_witness :
    search_for_symbol demo_runtime bar_narrow bar_name 4096 4144 49 = some 4096 ∧
    (object_matches demo_runtime bar_narrow bar_name 4096 = true ∧
      object_matches demo_runtime bar_wide bar_name 4096 = true ∧
      search_for_symbol demo_runtime bar_narrow bar_name 4096 4144 49
        = search_for_symbol demo_runtime bar_wide bar_name 4096 4144 49) :=
  ⟨by decide,
   search_for_symbol_wide_as_narrow demo_runtime bar_narrow bar_wide bar_name 4096 4144 49
     4096 4144 4144
     (by decide) (by simp [bar_name]) (by decide) (by decide) (by decide) (by decide)
     (by decide) (by decide) (by decide) (by decide) (by decide) (by decide) (by decide)
     (by decide) (by decide) (by decide) (by decide) (by decide) (by decide)⟩

/-! ## What the symbol search reads -/

/-- One disjunct of the name test makes only accesses to the vector. -/
theorem string_test_log_access (rt : Runtime) (m : Memory) (name : CString)
    (namelen v : Nat) (wide : Bool) (e : Access)
    (he : e ∈ (string_test_log rt m name namelen v wide).1) :
    name_access rt m name namelen v e := by
  unfold name_access
  cases wide
  · unfold string_test_log at he
    simp only [Bool.false_eq_true, if_false] at he
    by_cases h1 : rt.widetag_of (read_word rt m v) = rt.SIMPLE_BASE_STRING_WIDETAG
    · rw [if_pos h1] at he
      by_cases h2 : read_word rt m (vector_length_addr rt v) = namelen
      · rw [if_pos h2] at he
        simp only [List.mem_cons] at he
        rcases he with he | he | he | he
        · exact Or.inl he
        · exact Or.inr (Or.inl he)
        · exact Or.inr (Or.inr ⟨h2, Or.inl he⟩)
        · exact Or.inr (Or.inr ⟨h2, Or.inr (Or.inr (Or.inl (strcmp_log_reads m name _ e he)))⟩)
      · rw [if_neg h2] at he
        simp only [List.mem_cons, List.mem_singleton, List.not_mem_nil, or_false] at he
        rcases he with he | he
        · exact Or.inl he
        · exact Or.inr (Or.inl he)
    · rw [if_neg h1] at he
      simp only [List.mem_singleton] at he
      exact Or.inl he
  · unfold string_test_log at he
    simp only [if_true] at he
    by_cases h1 : rt.widetag_of (read_word rt m v) = rt.SIMPLE_CHARACTER_STRING_WIDETAG
    · rw [if_pos h1] at he
      by_cases h2 : read_word rt m (vector_length_addr rt v) = namelen
      · rw [if_pos h2] at he
        simp only [List.mem_cons] at he
        rcases he with he | he | he | he
        · exact Or.inl he
        · exact Or.inr (Or.inl he)
        · exact Or.inr (Or.inr ⟨h2, Or.inr (Or.inl he)⟩)
        · exact Or.inr (Or.inr ⟨h2, Or.inr (Or.inr (Or.inr
            (strcmp_ucs4_ascii_log_reads rt m name _ e he)))⟩)
      · rw [if_neg h2] at he
        simp only [List.mem_cons, List.mem_singleton, List.not_mem_nil, or_false] at he
        rcases he with he | he
        · exact Or.inl he
        · exact Or.inr (Or.inl he)
    · rw [if_neg h1] at he
      simp only [List.mem_singleton] at he
      exact Or.inl he

/-- The name test makes the region test of the vector address and, only when
it passed, accesses to the vector. -/
theorem name_matches_log_access (rt : Runtime) (m : Memory) (name : CString)
    (namelen v : Nat) (e : Access)
    (he : e ∈ (name_matches_log rt m name namelen v).1) :
    e = Access.managed v (rt.gc_managed_addr_p v) ∨
    (rt.gc_managed_addr_p v = true ∧ name_access rt m name namelen v e) := by
  unfold name_matches_log at he
  dsimp only at he
  by_cases hm : rt.gc_managed_addr_p v = true
  · rw [if_pos hm] at he
    split_ifs at he with h1 h2
    · simp only [List.mem_cons] at he
      rcases he with he | he
      · left; rw [he, hm]
      · exact Or.inr ⟨hm, string_test_log_access rt m name namelen v false e he⟩
    · simp only [List.mem_cons, List.mem_append] at he
      rcases he with he | he | he
      · left; rw [he, hm]
      · exact Or.inr ⟨hm, string_test_log_access rt m name namelen v false e he⟩
      · exact Or.inr ⟨hm, string_test_log_access rt m name namelen v true e he⟩
    · simp only [List.mem_cons] at he
      rcases he with he | he
      · left; rw [he, hm]
      · exact Or.inr ⟨hm, string_test_log_access rt m name namelen v false e he⟩
  · rw [if_neg hm] at he
    have hm2 : rt.gc_managed_addr_p v = false := by simpa using hm
    simp only [List.mem_singleton] at he
    left; rw [he, hm2]

/-- The candidate test makes accesses only for a symbol header, and then only
those of `candidate_access`. -/
theorem candidate_matches_log_access (rt : Runtime) (m : Memory) (name : CString)
    (namelen where_ word : Nat) (e : Access)
    (he : e ∈ (candidate_matches_log rt m name namelen where_ word).1) :
    rt.widetag_of word = rt.SYMBOL_WIDETAG ∧ candidate_access rt m name namelen where_ e := by
  unfold candidate_matches_log at he
  dsimp only at he
  unfold candidate_access symbol_name_vector
  split_ifs at he with h1 h2
  · refine ⟨h1, ?_⟩
    simp only [List.mem_cons] at he
    rcases he with he | he | he
    · exact Or.inl he
    · exact Or.inl he
    · exact Or.inr (name_matches_log_access rt m name namelen _ e he)
  · simp only [List.mem_singleton] at he
    exact ⟨h1, Or.inl he⟩
  · simp at he

/-- Every access of the loop is the read of the header of an object of the
walk or, for a symbol header, an access of the candidate test on it. -/
theorem search_for_symbol_loop_log_access (rt : Runtime) (m : Memory) (name : CString)
    (namelen limit : Nat) :
    ∀ fuel where_ e, e ∈ (search_for_symbol_loop_log rt m name namelen limit fuel where_).1 →
      ∃ o, o ∈ walk rt m limit fuel where_ ∧
        (e = Access.word o ∨
          (rt.widetag_of (read_word rt m o) = rt.SYMBOL_WIDETAG ∧
            candidate_access rt m name namelen o e)) := by
  intro fuel
  induction fuel with
  | zero => intro where_ e he; simp [search_for_symbol_loop_log] at he
  | succ fuel ih =>
    intro where_ e he
    rw [search_for_symbol_loop_log] at he
    rw [walk]
    by_cases h1 : where_ < limit
    · rw [if_pos h1] at he
      rw [if_pos h1]
      dsimp only at he
      split_ifs at he with h2
      · simp only [List.mem_cons] at he
        rcases he with he | he
        · exact ⟨where_, List.mem_cons_self _ _, Or.inl he⟩
        · exact ⟨where_, List.mem_cons_self _ _,
            Or.inr (candidate_matches_log_access rt m name namelen where_ _ e he)⟩
      · simp only [List.mem_cons, List.mem_append] at he
        rcases he with he | he | he
        · exact ⟨where_, List.mem_cons_self _ _, Or.inl he⟩
        · exact ⟨where_, List.mem_cons_self _ _,
            Or.inr (candidate_matches_log_access rt m name namelen where_ _ e he)⟩
        · obtain ⟨o, ho, hoe⟩ := ih _ e he
          exact ⟨o, List.mem_cons_of_mem _ ho, hoe⟩
    · rw [if_neg h1] at he
      simp at he

/-- C7, as stated, fails on the code.  The header word at the cursor is read
with no region test: scanning the range from 8192 to 8200, above the managed
region, reads the word at 8192.  And for a name only the vector's own address
is tested: with the name's header in the last managed words (8176), the data
bytes are read from 8192 on, where `gc_managed_addr_p` is false, and the
symbol is returned. -/
theorem search_for_symbol_reads_unmanaged :
    (search_for_symbol_log demo_runtime three_objects target_name 8192 8200 9
        = ([Access.word 8192], some 0) ∧
      demo_runtime.gc_managed_addr_p 8192 = false) ∧
    (search_for_symbol_log demo_runtime name_at_region_end target_name 4096 4144 49
        = ([Access.word 4096, Access.word 4128, Access.word 4128, Access.managed 8176 true,
            Access.word 8176, Access.word 8184, Access.call_strcmp 8192, Access.byte 8192,
            Access.byte 8193, Access.byte 8194, Access.byte 8195, Access.byte 8196,
            Access.byte 8197, Access.byte 8198],
           some 4096) ∧
      demo_runtime.gc_managed_addr_p 8176 = true ∧
      demo_runtime.gc_managed_addr_p 8192 = false ∧
      demo_runtime.gc_managed_addr_p 8198 = false) := by
  refine ⟨⟨?_, ?_⟩, ?_, ?_, ?_, ?_⟩ <;> decide

/-- C7, amended: every access of `search_for_symbol` belongs to an object `o` of
the walk (so `start ≤ o < end`) and is either the read of the header word at
`o`, made without a region test, or, when that header is a symbol header, one
of: the read of the name slot of `o`, made without a region test; the region
test of the vector address `v` held in the name slot; or, only when
`gc_managed_addr_p v` holds, a read of the vector's header at `v`, of its
length, or, only when the length is the target's, of a data element at an
index up to the target's length. -/
theorem search_for_symbol_reads_classified (rt : Runtime) (m : Memory) (name : CString)
    (start end_ fuel : Nat) (e : Access)
    (he : e ∈ (search_for_symbol_log rt m name start end_ fuel).1) :
    ∃ o, (o ∈ walk rt m end_ fuel start ∧ start ≤ o ∧ o < end_) ∧
      (e = Access.word o ∨
        (rt.widetag_of (read_word rt m o) = rt.SYMBOL_WIDETAG ∧
          (e = Access.word (symbol_name_addr rt o) ∨
           e = Access.managed (symbol_name_vector rt m o)
                 (rt.gc_managed_addr_p (symbol_name_vector rt m o)) ∨
           (rt.gc_managed_addr_p (symbol_name_vector rt m o) = true ∧
             name_access rt m name (rt.make_fixnum (strlen name))
               (symbol_name_vector rt m o) e)))) := by
  obtain ⟨o, ho, hoe⟩ := search_for_symbol_loop_log_access rt m name
    (rt.make_fixnum (strlen name)) end_ fuel start e he
  exact ⟨o, ⟨ho, walk_mem_bounds rt m end_ fuel start o ho⟩, hoe⟩

/-- Witness for C7 amended: in the search for `TARGET` over the three objects,
the byte read at 4272 belongs to an object of the walk. -/
theorem search_for_symbol_reads_classified_witness :
    Access.byte 4272 ∈ (search_for_symbol_log demo_runtime three_objects target_name
      4096 4224 129).1 ∧
    ∃ o, (o ∈ walk demo_runtime three_objects 4224 129 4096 ∧ 4096 ≤ o ∧ o < 4224) ∧
      (Access.byte 4272 = Access.word o ∨
        (demo_runtime.widetag_of (read_word demo_runtime three_objects o)
            = demo_runtime.SYMBOL_WIDETAG ∧
          (Access.byte 4272 = Access.word (symbol_name_addr demo_runtime o) ∨
           Access.byte 4272 = Access.managed (symbol_name_vector demo_runtime three_objects o)
                 (demo_runtime.gc_managed_addr_p
                   (symbol_name_vector demo_runtime three_objects o)) ∨
           (demo_runtime.gc_managed_addr_p (symbol_name_vector demo_runtime three_objects o)
               = true ∧
             name_access demo_runtime three_objects target_name
               (demo_runtime.make_fixnum (strlen target_name))
               (symbol_name_vector demo_runtime three_objects o) (Access.byte 4272))))) :=
  ⟨by decide,
   search_for_symbol_reads_classified demo_runtime three_objects target_name 4096 4224 129
     (Access.byte 4272) (by decide)⟩

/-- The function `strcmp` depends only on the bytes at indices up to the
target's first NUL. -/
theorem strcmp_congr (m1 m2 : Memory) :
    ∀ (name : CString) (a : Nat), (∀ i, i ≤ strlen name → m1 (a + i) = m2 (a + i)) →
      strcmp m1 a name = strcmp m2 a name := by
  intro name
  induction name with
  | nil =>
    intro a h
    have := h 0 (Nat.zero_le _)
    simp only [Nat.add_zero] at this
    simp only [strcmp, this]
  | cons c cs ih =>
    intro a h
    have h0 := h 0 (Nat.zero_le _)
    simp only [Nat.add_zero] at h0
    rw [strcmp, strcmp, h0]
    by_cases h1 : (m2 a).val ≠ c.val
    · rw [if_pos h1, if_pos h1]
    · rw [if_neg h1, if_neg h1]
      by_cases h2 : c.val = 0
      · rw [if_pos h2, if_pos h2]
      · rw [if_neg h2, if_neg h2]
        apply ih
        intro i hi
        have := h (i + 1) (by simp only [strlen, h2, if_false]; omega)
        have e : a + (i + 1) = a + 1 + i := by omega
        rw [e] at this
        exact this

/-- The function `strcmp_ucs4_ascii` depends only on the units at indices up to
the target's first NUL. -/
theorem strcmp_ucs4_ascii_congr (rt : Runtime) (m1 m2 : Memory) :
    ∀ (name : CString) (a : Nat),
      (∀ i, i ≤ strlen name → read_u32 m1 (a + 4 * i) = read_u32 m2 (a + 4 * i)) →
      strcmp_ucs4_ascii rt m1 a name = strcmp_ucs4_ascii rt m2 a name := by
  intro name
  induction name with
  | nil =>
    intro a h
    have := h 0 (Nat.zero_le _)
    simp only [Nat.mul_zero, Nat.add_zero] at this
    simp only [strcmp_ucs4_ascii, this]
  | cons c cs ih =>
    intro a h
    have h0 := h 0 (Nat.zero_le _)
    simp only [Nat.mul_zero, Nat.add_zero] at h0
    rw [strcmp_ucs4_ascii, strcmp_ucs4_ascii, h0]
    by_cases h1 : read_u32 m2 a = c.val
    · rw [if_pos h1, if_pos h1]
      by_cases h2 : c.val = 0
      · rw [if_pos h2, if_pos h2]
      · rw [if_neg h2, if_neg h2]
        apply ih
        intro i hi
        have := h (i + 1) (by simp only [strlen, h2, if_false]; omega)
        have e : a + 4 * (i + 1) = a + 4 + 4 * i := by omega
        rw [e] at this
        exact this
    · rw [if_neg h1, if_neg h1]

/-- The candidate test gives the same result in two memories that agree at the
object but for the data of a name whose stored length is not the target's. -/
theorem candidate_matches_congr (rt : Runtime) (m1 m2 : Memory) (name : CString) (o : Nat)
    (h : agree_but_unmatched_data rt m1 m2 name o) :
    candidate_matches rt m1 name (rt.make_fixnum (strlen name)) o (read_word rt m1 o)
      = candidate_matches rt m2 name (rt.make_fixnum (strlen name)) o (read_word rt m2 o) := by
  obtain ⟨hw, -, hsym⟩ := h
  rw [← hw]
  unfold candidate_matches
  by_cases h1 : rt.widetag_of (read_word rt m1 o) = rt.SYMBOL_WIDETAG
  · obtain ⟨hslot, hname⟩ := hsym h1
    rw [← hslot]
    by_cases h2 : rt.lowtag_of (read_word rt m1 (symbol_name_addr rt o)) = rt.OTHER_POINTER_LOWTAG
    · rw [if_pos ⟨h1, h2⟩, if_pos ⟨h1, h2⟩]
      unfold name_matches
      by_cases h3 : rt.gc_managed_addr_p (rt.VECTOR (read_word rt m1 (symbol_name_addr rt o)))
          = true
      · obtain ⟨hhdr, hlen, hdata⟩ := hname h2 h3
        unfold symbol_name_vector at hhdr hlen hdata
        rw [← hhdr, ← hlen]
        by_cases h4 : read_word rt m1
            (vector_length_addr rt (rt.VECTOR (read_word rt m1 (symbol_name_addr rt o))))
            = rt.make_fixnum (strlen name)
        · have hd := hdata h4
          rw [strcmp_congr m1 m2 name _ (fun i hi => (hd i hi).1),
            strcmp_ucs4_ascii_congr rt m1 m2 name _ (fun i hi => (hd i hi).2)]
        · simp only [h4, decide_False, Bool.and_false, Bool.false_and]
      · have h3f : rt.gc_managed_addr_p (rt.VECTOR (read_word rt m1 (symbol_name_addr rt o)))
            = false := by simpa using h3
        rw [h3f, Bool.false_and, Bool.false_and]
    · rw [if_neg (fun h => h2 h.2), if_neg (fun h => h2 h.2)]
  · rw [if_neg (fun h => h1 h.1), if_neg (fun h => h1 h.1)]

/-- C10 (length short-circuit): the test of a candidate whose name has a stored
length other than the target's fixnum length calls neither comparator; every
comparator call of a search is made on the data of the name of an object of
the walk whose stored length is the target's; and the result of the search is
the same in any second memory that differs from the first, as far as the walk
and the tests can see, only in data of names whose stored length is not the
target's. -/
theorem search_for_symbol_length_short_circuit (rt : Runtime) (m : Memory) (name : CString) :
    (∀ where_ word,
      read_word rt m (vector_length_addr rt (symbol_name_vector rt m where_))
        ≠ rt.make_fixnum (strlen name) →
      comparator_calls
        (candidate_matches_log rt m name (rt.make_fixnum (strlen name)) where_ word).1 = 0) ∧
    (∀ start end_ fuel e, e ∈ (search_for_symbol_log rt m name start end_ fuel).1 →
      e.is_call = true →
      ∃ o, o ∈ walk rt m end_ fuel start ∧
        read_word rt m (vector_length_addr rt (symbol_name_vector rt m o))
          = rt.make_fixnum (strlen name) ∧
        (e = Access.call_strcmp (vector_data_addr rt (symbol_name_vector rt m o)) ∨
         e = Access.call_strcmp_ucs4_ascii (vector_data_addr rt (symbol_name_vector rt m o)))) ∧
    (∀ m2 start end_ fuel,
      (∀ o, o ∈ walk rt m end_ fuel start → agree_but_unmatched_data rt m m2 name o) →
      search_for_symbol rt m name start end_ fuel
        = search_for_symbol rt m2 name start end_ fuel) := by
  have key : ∀ where_ e, candidate_access rt m name (rt.make_fixnum (strlen name)) where_ e →
      e.is_call = true →
      read_word rt m (vector_length_addr rt (symbol_name_vector rt m where_))
          = rt.make_fixnum (strlen name) ∧
        (e = Access.call_strcmp (vector_data_addr rt (symbol_name_vector rt m where_)) ∨
         e = Access.call_strcmp_ucs4_ascii
              (vector_data_addr rt (symbol_name_vector rt m where_))) := by
    intro where_ e hacc hcall
    rcases hacc with h | h | ⟨-, h | h | ⟨hlen, h | h | ⟨i, -, h⟩ | ⟨i, -, h⟩⟩⟩
    · rw [h] at hcall; simp [Access.is_call] at hcall
    · rw [h] at hcall; simp [Access.is_call] at hcall
    · rw [h] at hcall; simp [Access.is_call] at hcall
    · rw [h] at hcall; simp [Access.is_call] at hcall
    · exact ⟨hlen, Or.inl h⟩
    · exact ⟨hlen, Or.inr h⟩
    · rw [h] at hcall; simp [Access.is_call] at hcall
    · rw [h] at hcall; simp [Access.is_call] at hcall
  refine ⟨?_, ?_, ?_⟩
  · intro where_ word hlen
    unfold comparator_calls
    rw [List.length_eq_zero, List.filter_eq_nil_iff]
    intro e he hcall
    have hacc := (candidate_matches_log_access rt m name _ where_ word e he).2
    exact hlen (key where_ e hacc hcall).1
  · intro start end_ fuel e he hcall
    obtain ⟨o, ho, hoe⟩ := search_for_symbol_loop_log_access rt m name
      (rt.make_fixnum (strlen name)) end_ fuel start e he
    rcases hoe with h | ⟨-, hacc⟩
    · rw [h] at hcall; simp [Access.is_call] at hcall
    · exact ⟨o, ho, key o e hacc hcall⟩
  · intro m2 start end_ fuel h
    apply search_for_symbol_loop_congr
    intro o ho
    exact ⟨candidate_matches_congr rt m m2 name o (h o ho), fun _ => (h o ho).2.1⟩

/-- Witness for C10: the name of the first of the three objects has stored
length 1, not 6; its test for the target `TARGET` calls no comparator, and the
search returns the same object when that name's data bytes are changed. -/
theorem search_for_symbol_length_short_circuit_witness :
    comparator_calls
      (candidate_matches_log demo_runtime three_objects target_name
        (demo_runtime.make_fixnum (strlen target_name)) 4096 45).1 = 0 ∧
    search_for_symbol demo_runtime three_objects target_name 4096 4224 129
      = search_for_symbol demo_runtime three_objects_other_data target_name 4096 4224 129 ∧
    three_objects 4240 ≠ three_objects_other_data 4240 :=
  have h := search_for_symbol_length_short_circuit demo_runtime three_objects target_name
  ⟨h.1 4096 45 (by decide), h.2.2 three_objects_other_data 4096 4224 129 (by decide),
   by decide⟩

/-- With fuel above the length of the range and objects of at least one word,
the walk list is the whole walk: more fuel does not lengthen it. -/
theorem walk_fuel_enough (rt : Runtime) (m : Memory) (limit : Nat) (hW : 0 < rt.N_WORD_BYTES) :
    ∀ fuel where_, limit - where_ < fuel →
      (∀ o, o ∈ walk rt m limit fuel where_ → 1 ≤ rt.OBJECT_SIZE m (read_word rt m o) o) →
      ∀ k, walk rt m limit (fuel + k) where_ = walk rt m limit fuel where_ := by
  intro fuel
  induction fuel with
  | zero => intro where_ h; omega
  | succ fuel ih =>
    intro where_ hfuel hsize k
    have e : fuel + 1 + k = (fuel + k) + 1 := by omega
    rw [e, walk, walk]
    by_cases h1 : where_ < limit
    · have hw : walk rt m limit (fuel + 1) where_ = where_ :: walk rt m limit fuel
          (where_ + rt.OBJECT_SIZE m (read_word rt m where_) where_ * rt.N_WORD_BYTES) := by
        rw [walk, if_pos h1]
      rw [hw] at hsize
      rw [if_pos h1, if_pos h1]
      have hs := hsize where_ (List.mem_cons_self _ _)
      have hadv : 1 ≤ rt.OBJECT_SIZE m (read_word rt m where_) where_ * rt.N_WORD_BYTES :=
        Nat.mul_le_mul hs hW
      rw [ih _ (by omega) (fun o ho => hsize o (List.mem_cons_of_mem _ ho)) k]
    · rw [if_neg h1, if_neg h1]

/-! ## Candidates the search does not accept -/

/-- A pointer other than 0 that the loop returns is the address of an object
that passes the candidate test. -/
theorem search_for_symbol_loop_some_matches (rt : Runtime) (m : Memory) (name : CString)
    (namelen limit : Nat) :
    ∀ fuel where_ r, search_for_symbol_loop rt m name namelen limit fuel where_ = some r →
      r ≠ 0 → candidate_matches rt m name namelen r (read_word rt m r) = true := by
  intro fuel
  induction fuel with
  | zero => intro where_ r h; simp [search_for_symbol_loop] at h
  | succ fuel ih =>
    intro where_ r h hr
    rw [search_for_symbol_loop] at h
    by_cases h1 : where_ < limit
    · rw [if_pos h1] at h
      dsimp only at h
      by_cases h2 : candidate_matches rt m name namelen where_ (read_word rt m where_) = true
      · rw [if_pos h2] at h
        simp only [Option.some.injEq] at h
        subst h
        exact h2
      · rw [if_neg h2] at h
        exact ih _ r h hr
    · rw [if_neg h1] at h
      simp only [Option.some.injEq] at h
      exact absurd h.symm hr

/-- An object that passes the candidate test has a symbol header, an
`OTHER_POINTER` tagged name slot, a managed name vector, and a name whose
stored length is `namelen`. -/
theorem candidate_matches_true (rt : Runtime) (m : Memory) (name : CString)
    (namelen where_ word : Nat)
    (h : candidate_matches rt m name namelen where_ word = true) :
    rt.widetag_of word = rt.SYMBOL_WIDETAG ∧
    rt.lowtag_of (read_word rt m (symbol_name_addr rt where_)) = rt.OTHER_POINTER_LOWTAG ∧
    rt.gc_managed_addr_p (symbol_name_vector rt m where_) = true ∧
    read_word rt m (vector_length_addr rt (symbol_name_vector rt m where_)) = namelen := by
  unfold candidate_matches at h
  by_cases hc : rt.widetag_of word = rt.SYMBOL_WIDETAG ∧
      rt.lowtag_of (read_word rt m (symbol_name_addr rt where_)) = rt.OTHER_POINTER_LOWTAG
  · rw [if_pos hc] at h
    unfold name_matches at h
    unfold symbol_name_vector
    simp only [Bool.and_eq_true, Bool.or_eq_true, decide_eq_true_eq] at h
    refine ⟨hc.1, hc.2, h.1, ?_⟩
    rcases h.2 with h2 | h2
    · exact h2.1.2
    · exact h2.1.2
  · rw [if_neg hc] at h
    simp at h

/-- C11: a candidate at `o` whose name slot does not carry `OTHER_POINTER_LOWTAG`,
or whose untagged name address fails `gc_managed_addr_p`, never passes the
test, whatever its header and whatever is stored at that address; its test
reads nothing but the name slot (the vector is not read); the loop goes on from
it at `o + OBJECT_SIZE` words; and `search_for_symbol` returns it for no range
(the value 0 apart, which is not-found). -/
theorem search_for_symbol_skips_unusable_name (rt : Runtime) (m : Memory) (name : CString)
    (o : Nat)
    (hbad : rt.lowtag_of (read_word rt m (symbol_name_addr rt o)) ≠ rt.OTHER_POINTER_LOWTAG ∨
      rt.gc_managed_addr_p (symbol_name_vector rt m o) = false) :
    (∀ namelen word, candidate_matches rt m name namelen o word = false) ∧
    (∀ namelen word e, e ∈ (candidate_matches_log rt m name namelen o word).1 →
      e = Access.word (symbol_name_addr rt o) ∨
      e = Access.managed (symbol_name_vector rt m o) false) ∧
    (∀ namelen limit fuel, o < limit →
      search_for_symbol_loop rt m name namelen limit (fuel + 1) o
        = search_for_symbol_loop rt m name namelen limit fuel
            (o + rt.OBJECT_SIZE m (read_word rt m o) o * rt.N_WORD_BYTES)) ∧
    (∀ start end_ fuel, search_for_symbol rt m name start end_ fuel = some o → o = 0) := by
  have hno : ∀ namelen word, candidate_matches rt m name namelen o word = false := by
    intro namelen word
    by_contra hc
    have ht : candidate_matches rt m name namelen o word = true := by simpa using hc
    obtain ⟨-, htag, hman, -⟩ := candidate_matches_true rt m name namelen o word ht
    rcases hbad with hb | hb
    · exact hb htag
    · rw [hb] at hman; exact absurd hman (by simp)
  refine ⟨hno, ?_, ?_, ?_⟩
  · intro namelen word e he
    obtain ⟨-, hacc⟩ := candidate_matches_log_access rt m name namelen o word e he
    rcases hacc with h | h | ⟨hman, -⟩
    · exact Or.inl h
    · rcases hbad with hb | hb
      · unfold candidate_matches_log at he
        dsimp only at he
        split_ifs at he with h1
        · simp only [List.mem_singleton] at he
          exact Or.inl he
        · simp at he
      · rw [hb] at h
        exact Or.inr h
    · rcases hbad with hb | hb
      · unfold candidate_matches_log at he
        dsimp only at he
        split_ifs at he with h1
        · simp only [List.mem_singleton] at he
          exact Or.inl he
        · simp at he
      · rw [hb] at hman; exact absurd hman (by simp)
  · intro namelen limit fuel hlt
    rw [search_for_symbol_loop, if_pos hlt]
    dsimp only
    rw [hno]
    simp
  · intro start end_ fuel h
    by_contra h0
    have := search_for_symbol_loop_some_matches rt m name _ end_ fuel start o h h0
    rw [hno] at this
    exact absurd this (by simp)

/-- Witness for C11: the first of the two symbols has its name `TARGET` stored
above the managed region; it does not pass the test and its name is not read. -/
theorem search_for_symbol_skips_unusable_name_witness :
    search_for_symbol demo_runtime unusable_names target_name 4096 4192 97 = some 0 ∧
    strcmp unusable_names 8208 target_name = 0 ∧
    (∀ namelen word, candidate_matches demo_runtime unusable_names target_name namelen 4096 word
      = false) ∧
    (∀ namelen word e,
      e ∈ (candidate_matches_log demo_runtime unusable_names target_name namelen 4096 word).1 →
      e = Access.word (symbol_name_addr demo_runtime 4096) ∨
      e = Access.managed (symbol_name_vector demo_runtime unusable_names 4096) false) :=
  have h := search_for_symbol_skips_unusable_name demo_runtime unusable_names target_name 4096
    (Or.inr (by decide))
  ⟨by decide, by decide, h.1, h.2.1⟩

/-- C12: a symbol that `search_for_symbol` returns has a name whose stored
length field is `make_fixnum (strlen name)`, the fixnum of the number of target
bytes before the target's first NUL: for a target `pre ++ NUL ++ post` with
`pre` free of NUL that is `make_fixnum` of the length of `pre`, and no name
whose length field is another fixnum is returned. -/
theorem search_for_symbol_returns_length_match (rt : Runtime) (m : Memory) (name : CString)
    (start end_ fuel r : Nat)
    (h : search_for_symbol rt m name start end_ fuel = some r) (hr : r ≠ 0) :
    rt.widetag_of (read_word rt m r) = rt.SYMBOL_WIDETAG ∧
    read_word rt m (vector_length_addr rt (symbol_name_vector rt m r))
      = rt.make_fixnum (strlen name) ∧
    (∀ pre post, name = pre ++ 0 :: post → (∀ c, c ∈ pre → c ≠ 0) →
      read_word rt m (vector_length_addr rt (symbol_name_vector rt m r))
        = rt.make_fixnum pre.length) ∧
    (∀ n, rt.make_fixnum n ≠ rt.make_fixnum (strlen name) →
      read_word rt m (vector_length_addr rt (symbol_name_vector rt m r)) ≠ rt.make_fixnum n) := by
  have hm := search_for_symbol_loop_some_matches rt m name _ end_ fuel start r h hr
  obtain ⟨hsym, -, -, hlen⟩ := candidate_matches_true rt m name _ r _ hm
  refine ⟨hsym, hlen, ?_, ?_⟩
  · intro pre post hname hnul
    rw [hlen, hname, strlen_append_nul pre post hnul]
  · intro n hn hcontra
    exact hn (hcontra.symm.trans hlen)

/-- Witness for C12: for the target bytes `AB\0XY` the search passes the symbol
whose name has declared length 5, although `strcmp_ucs4_ascii` finds that name
equal to the target, and returns the symbol whose name has declared length 2. -/
theorem search_for_symbol_returns_length_match_witness :
    search_for_symbol demo_runtime two_ab_symbols ab_nul_xy_name 4096 4192 97 = some 4144 ∧
    strcmp_ucs4_ascii demo_runtime two_ab_symbols 4208 ab_nul_xy_name = 0 ∧
    read_word demo_runtime two_ab_symbols
      (vector_length_addr demo_runtime (symbol_name_vector demo_runtime two_ab_symbols 4096))
      = demo_runtime.make_fixnum 5 ∧
    read_word demo_runtime two_ab_symbols
      (vector_length_addr demo_runtime (symbol_name_vector demo_runtime two_ab_symbols 4144))
      = demo_runtime.make_fixnum 2 :=
  have h := search_for_symbol_returns_length_match demo_runtime two_ab_symbols ab_nul_xy_name
    4096 4192 97 4144 (by decide) (by decide)
  ⟨by decide, by decide, by decide, h.2.2.1 [65, 66] [88, 89] (by decide) (by simp)⟩

/-! ## Termination of the symbol search -/

/-- The loop with its iteration count computes the same result. -/
theorem search_for_symbol_loop_steps_result (rt : Runtime) (m : Memory) (name : CString)
    (namelen limit : Nat) :
    ∀ fuel where_,
      (search_for_symbol_loop_steps rt m name namelen limit fuel where_).2
        = search_for_symbol_loop rt m name namelen limit fuel where_ := by
  intro fuel
  induction fuel with
  | zero => intro where_; rfl
  | succ fuel ih =>
    intro where_
    rw [search_for_symbol_loop_steps, search_for_symbol_loop]
    by_cases h1 : where_ < limit
    · rw [if_pos h1, if_pos h1]
      dsimp only
      by_cases h2 : candidate_matches rt m name namelen where_ (read_word rt m where_) = true
      · rw [if_pos h2, if_pos h2]
      · rw [if_neg h2, if_neg h2]
        exact ih _
    · rw [if_neg h1, if_neg h1]

/-- With objects of at least one word and fuel `f` such that the range from the
cursor to the limit is shorter than `f` words, the loop returns, and the number
`n` of its iterations satisfies `n * W ≤ (limit - cursor) + W - 1`, that is, `n`
is at most the length of the range in words, rounded up; `n` is 0 when the
cursor is not below the limit. -/
theorem search_for_symbol_loop_steps_bound (rt : Runtime) (m : Memory) (name : CString)
    (namelen limit : Nat) (hW : 0 < rt.N_WORD_BYTES) :
    ∀ fuel where_, limit - where_ + rt.N_WORD_BYTES - 1 < fuel * rt.N_WORD_BYTES →
      (∀ o, o ∈ walk rt m limit fuel where_ → 1 ≤ rt.OBJECT_SIZE m (read_word rt m o) o) →
      ∃ n r, search_for_symbol_loop_steps rt m name namelen limit fuel where_ = (n, some r) ∧
        n * rt.N_WORD_BYTES ≤ limit - where_ + rt.N_WORD_BYTES - 1 ∧
        (limit ≤ where_ → n = 0) := by
  intro fuel
  induction fuel with
  | zero => intro where_ h; simp at h
  | succ fuel ih =>
    intro where_ hfuel hsize
    rw [search_for_symbol_loop_steps]
    by_cases h1 : where_ < limit
    · have hw : walk rt m limit (fuel + 1) where_ = where_ :: walk rt m limit fuel
          (where_ + rt.OBJECT_SIZE m (read_word rt m where_) where_ * rt.N_WORD_BYTES) := by
        rw [walk, if_pos h1]
      rw [hw] at hsize
      rw [if_pos h1]
      dsimp only
      by_cases h2 : candidate_matches rt m name namelen where_ (read_word rt m where_) = true
      · rw [if_pos h2]
        refine ⟨1, where_, rfl, ?_, ?_⟩
        · omega
        · intro h; omega
      · rw [if_neg h2]
        have hs := hsize where_ (List.mem_cons_self _ _)
        have hadv : rt.N_WORD_BYTES
            ≤ rt.OBJECT_SIZE m (read_word rt m where_) where_ * rt.N_WORD_BYTES :=
          Nat.le_mul_of_pos_left _ hs
        have hmul : (fuel + 1) * rt.N_WORD_BYTES = fuel * rt.N_WORD_BYTES + rt.N_WORD_BYTES :=
          Nat.succ_mul _ _
        have hfuel0 : fuel = 0 → fuel * rt.N_WORD_BYTES = 0 := by
          intro h; rw [h]; simp
        have hfuel1 : fuel ≠ 0 → rt.N_WORD_BYTES ≤ fuel * rt.N_WORD_BYTES := by
          intro h
          exact Nat.le_mul_of_pos_left _ (Nat.pos_of_ne_zero h)
        have hnext : limit - (where_ + rt.OBJECT_SIZE m (read_word rt m where_) where_
              * rt.N_WORD_BYTES) + rt.N_WORD_BYTES - 1 < fuel * rt.N_WORD_BYTES := by
          by_cases hf : fuel = 0
          · have := hfuel0 hf
            omega
          · have := hfuel1 hf
            omega
        obtain ⟨n, r, hres, hn, hzero⟩ := ih _ hnext
          (fun o ho => hsize o (List.mem_cons_of_mem _ ho))
        refine ⟨n + 1, r, by rw [hres], ?_, ?_⟩
        · have hmul2 : (n + 1) * rt.N_WORD_BYTES = n * rt.N_WORD_BYTES + rt.N_WORD_BYTES :=
            Nat.succ_mul _ _
          by_cases hle : limit ≤ where_ + rt.OBJECT_SIZE m (read_word rt m where_) where_
              * rt.N_WORD_BYTES
          · have := hzero hle
            subst this
            simp only [Nat.zero_add, Nat.one_mul]
            omega
          · omega
        · intro h; omega
    · rw [if_neg h1]
      exact ⟨0, 0, rfl, by simp, fun _ => rfl⟩

/-- C13, as stated, fails on the code for a range that is not a whole number of
words: over the four bytes from 4096 to 4100 the loop runs once, while
`(end - start) / word size` is 0. -/
theorem search_for_symbol_iterations_exceed_quotient :
    search_for_symbol_steps demo_runtime three_objects target_name 4096 4100 2 = (1, some 0) ∧
    (4100 - 4096) / demo_runtime.N_WORD_BYTES = 0 ∧
    ¬ ((search_for_symbol_steps demo_runtime three_objects target_name 4096 4100 2).1
        ≤ (4100 - 4096) / demo_runtime.N_WORD_BYTES) := by
  refine ⟨?_, ?_, ?_⟩ <;> decide

/-- C13, amended: with objects of at least one word, `search_for_symbol` returns
for every start, end, target and memory once the fuel exceeds the length of the
range in words rounded up; the loop runs at most that many iterations, the
length of the range in words rounded up (which is `(end - start) / word size`
when the range is a whole number of words), and none when `start ≥ end`; and
the cursor strictly increases at every object of the walk. -/
theorem search_for_symbol_terminates (rt : Runtime) (m : Memory) (name : CString)
    (start end_ fuel : Nat)
    (hW : 0 < rt.N_WORD_BYTES)
    (hfuel : (end_ - start + rt.N_WORD_BYTES - 1) / rt.N_WORD_BYTES < fuel)
    (hsize : ∀ o, o ∈ walk rt m end_ fuel start → 1 ≤ rt.OBJECT_SIZE m (read_word rt m o) o) :
    (∃ n r, search_for_symbol_steps rt m name start end_ fuel = (n, some r) ∧
      search_for_symbol rt m name start end_ fuel = some r ∧
      n ≤ (end_ - start + rt.N_WORD_BYTES - 1) / rt.N_WORD_BYTES ∧
      (rt.N_WORD_BYTES ∣ end_ - start → n ≤ (end_ - start) / rt.N_WORD_BYTES) ∧
      (end_ ≤ start → n = 0)) ∧
    (∀ o, o ∈ walk rt m end_ fuel start →
      o < o + rt.OBJECT_SIZE m (read_word rt m o) o * rt.N_WORD_BYTES) := by
  have hfuel2 : end_ - start + rt.N_WORD_BYTES - 1 < fuel * rt.N_WORD_BYTES :=
    (Nat.div_lt_iff_lt_mul hW).mp hfuel
  obtain ⟨n, r, hres, hn, hzero⟩ := search_for_symbol_loop_steps_bound rt m name
    (rt.make_fixnum (strlen name)) end_ hW fuel start hfuel2 hsize
  have hn2 : n ≤ (end_ - start + rt.N_WORD_BYTES - 1) / rt.N_WORD_BYTES :=
    (Nat.le_div_iff_mul_le hW).mpr hn
  refine ⟨⟨n, r, hres, ?_, hn2, ?_, hzero⟩, ?_⟩
  · have := search_for_symbol_loop_steps_result rt m name (rt.make_fixnum (strlen name)) end_
      fuel start
    rw [hres] at this
    exact this.symm
  · intro hdvd
    obtain ⟨q, hq⟩ := hdvd
    rw [hq, Nat.mul_div_cancel_left _ hW]
    rw [hq] at hn
    by_contra hlt
    have h1 : q + 1 ≤ n := by omega
    have h2 : (q + 1) * rt.N_WORD_BYTES ≤ n * rt.N_WORD_BYTES := Nat.mul_le_mul_right _ h1
    have h3 : (q + 1) * rt.N_WORD_BYTES = rt.N_WORD_BYTES * q + rt.N_WORD_BYTES := by ring
    omega
  · intro o ho
    have hs := hsize o ho
    have : 1 ≤ rt.OBJECT_SIZE m (read_word rt m o) o * rt.N_WORD_BYTES := Nat.mul_le_mul hs hW
    omega

/-- Witness for C13 amended: the search for `MISSING` over the three objects, a
range of 16 words, returns after 3 iterations. -/
theorem search_for_symbol_terminates_witness :
    search_for_symbol_steps demo_runtime three_objects missing_name 4096 4224 17 = (3, some 0) ∧
    ((∃ n r, search_for_symbol_steps demo_runtime three_objects missing_name 4096 4224 17
          = (n, some r) ∧
        search_for_symbol demo_runtime three_objects missing_name 4096 4224 17 = some r ∧
        n ≤ (4224 - 4096 + demo_runtime.N_WORD_BYTES - 1) / demo_runtime.N_WORD_BYTES ∧
        (demo_runtime.N_WORD_BYTES ∣ 4224 - 4096 →
          n ≤ (4224 - 4096) / demo_runtime.N_WORD_BYTES) ∧
        (4224 ≤ 4096 → n = 0)) ∧
      (∀ o, o ∈ walk demo_runtime three_objects 4224 17 4096 →
        o < o + demo_runtime.OBJECT_SIZE three_objects (read_word demo_runtime three_objects o) o
          * demo_runtime.N_WORD_BYTES)) :=
  ⟨by decide,
   search_for_symbol_terminates demo_runtime three_objects missing_name 4096 4224 17
     (by decide) (by decide) (by decide)⟩

/-! ## Returns of `search_for_type` -/

/-- On a false return of `search_for_type` the loop condition fails at the
final cursor and budget. -/
theorem search_for_type_false_at (rt : Runtime) (m : Memory) (type : Int) :
    ∀ (fuel start : Nat) (count : Int) (cursor : Nat) (budget : Int),
      search_for_type rt m type fuel start count = some (false, cursor, budget) →
      ¬ ((budget = -1 ∨ budget > 0) ∧ rt.gc_managed_addr_p cursor = true) := by
  intro fuel
  induction fuel with
  | zero => intro start count cursor budget h; simp [search_for_type] at h
  | succ fuel ih =>
    intro start count cursor budget h
    by_cases hcond : (count = -1 ∨ count > 0) ∧ rt.gc_managed_addr_p start = true
    · by_cases hw : (rt.widetag_of (read_word rt m start) : Int) = type
      · rw [search_for_type_hit rt m type fuel start count hcond.1 hcond.2 hw] at h
        simp at h
      · rw [search_for_type_step rt m type fuel start count hcond.1 hcond.2 hw] at h
        exact ih _ _ _ _ h
    · rw [search_for_type_stop rt m type fuel start count hcond] at h
      simp only [Option.some.injEq, Prod.mk.injEq, true_and] at h
      obtain ⟨h1, h2⟩ := h
      subst h1
      subst h2
      exact hcond

/-- On a true return of `search_for_type` the final cursor is managed and the
word there carries the requested widetag. -/
theorem search_for_type_true_at (rt : Runtime) (m : Memory) (type : Int) :
    ∀ (fuel start : Nat) (count : Int) (cursor : Nat) (budget : Int),
      search_for_type rt m type fuel start count = some (true, cursor, budget) →
      rt.gc_managed_addr_p cursor = true ∧
      (rt.widetag_of (read_word rt m cursor) : Int) = type := by
  intro fuel
  induction fuel with
  | zero => intro start count cursor budget h; simp [search_for_type] at h
  | succ fuel ih =>
    intro start count cursor budget h
    by_cases hcond : (count = -1 ∨ count > 0) ∧ rt.gc_managed_addr_p start = true
    · by_cases hw : (rt.widetag_of (read_word rt m start) : Int) = type
      · rw [search_for_type_hit rt m type fuel start count hcond.1 hcond.2 hw] at h
        simp only [Option.some.injEq, Prod.mk.injEq, true_and] at h
        obtain ⟨hcur, -⟩ := h
        subst hcur
        exact ⟨hcond.2, hw⟩
      · rw [search_for_type_step rt m type fuel start count hcond.1 hcond.2 hw] at h
        exact ih _ _ _ _ h
    · rw [search_for_type_stop rt m type fuel start count hcond] at h
      simp at h

/-- C14: when `search_for_type` returns false, the final cursor is not a managed
address or the final budget is a value other than the sentinel -1 that is at
most 0; a call with budget 0 and a call with an unmanaged initial cursor
return false and leave cursor and budget as they were. -/
theorem search_for_type_false_reason (rt : Runtime) (m : Memory) (type : Int) :
    (∀ (fuel start : Nat) (count : Int) (cursor : Nat) (budget : Int),
      search_for_type rt m type fuel start count = some (false, cursor, budget) →
      rt.gc_managed_addr_p cursor = false ∨ (budget ≠ -1 ∧ budget ≤ 0)) ∧
    (∀ (fuel start : Nat),
      search_for_type rt m type (fuel + 1) start 0 = some (false, start, 0)) ∧
    (∀ (fuel start : Nat) (count : Int), rt.gc_managed_addr_p start = false →
      search_for_type rt m type (fuel + 1) start count = some (false, start, count)) := by
  refine ⟨?_, ?_, ?_⟩
  · intro fuel start count cursor budget h
    have hn := search_for_type_false_at rt m type fuel start count cursor budget h
    by_cases hm : rt.gc_managed_addr_p cursor = true
    · right
      have hb : ¬ (budget = -1 ∨ budget > 0) := fun hb => hn ⟨hb, hm⟩
      constructor
      · intro h1; exact hb (Or.inl h1)
      · by_contra h2
        exact hb (Or.inr (by omega))
    · left
      simpa using hm
  · intro fuel start
    apply search_for_type_stop
    intro h
    rcases h.1 with h1 | h1 <;> omega
  · intro fuel start count hm
    apply search_for_type_stop
    intro h
    rw [hm] at h
    exact absurd h.2 (by simp)

/-- Witness for C14: on the six cells the scan with budget 4 returns false with
the budget at 0, and the scans with budget 0 and from the unmanaged address
8192 return false at once. -/
theorem search_for_type_false_reason_witness :
    search_for_type demo_runtime six_cells 45 10 4096 4 = some (false, 4128, 0) ∧
    (demo_runtime.gc_managed_addr_p 4128 = false ∨ ((0 : Int) ≠ -1 ∧ (0 : Int) ≤ 0)) ∧
    search_for_type demo_runtime six_cells 45 10 4096 0 = some (false, 4096, 0) ∧
    search_for_type demo_runtime six_cells 45 10 8192 (-1) = some (false, 8192, -1) :=
  have h := search_for_type_false_reason demo_runtime six_cells 45
  ⟨by decide, h.1 10 4096 4 4128 0 (by decide), h.2.1 9 4096, h.2.2 9 8192 (-1) (by decide)⟩

/-- The budget -1 stays -1. -/
theorem search_for_type_unbounded_budget (rt : Runtime) (m : Memory) (type : Int) :
    ∀ (fuel start : Nat) (found : Bool) (cursor : Nat) (budget : Int),
      search_for_type rt m type fuel start (-1) = some (found, cursor, budget) →
      budget = -1 := by
  intro fuel
  induction fuel with
  | zero => intro start found cursor budget h; simp [search_for_type] at h
  | succ fuel ih =>
    intro start found cursor budget h
    by_cases hm : rt.gc_managed_addr_p start = true
    · by_cases hw : (rt.widetag_of (read_word rt m start) : Int) = type
      · rw [search_for_type_hit rt m type fuel start (-1) (Or.inl rfl) hm hw] at h
        simp only [ne_eq, not_true_eq_false, if_false, Option.some.injEq, Prod.mk.injEq] at h
        exact h.2.2.symm
      · rw [search_for_type_step rt m type fuel start (-1) (Or.inl rfl) hm hw] at h
        simp only [ne_eq, not_true_eq_false, if_false] at h
        exact ih _ _ _ _ h
    · rw [search_for_type_stop rt m type fuel start (-1) (fun hc => hm hc.2)] at h
      simp only [Option.some.injEq, Prod.mk.injEq] at h
      exact h.2.2.symm

/-- Accounting for an even budget `2 * b`: the budget used is twice the number
of comparisons, and with the cursor `2 * k` words on it is `2 * k` on a false
return and `2 * k + 2` on a true return. -/
theorem search_for_type_even_budget_account (rt : Runtime) (m : Memory) (type : Int) :
    ∀ (fuel b start : Nat) (found : Bool) (cursor : Nat) (budget : Int),
      (search_for_type_log rt m type fuel start (2 * (b : Int))).2
        = some (found, cursor, budget) →
      2 * (b : Int) - budget
        = 2 * (comparisons (search_for_type_log rt m type fuel start (2 * (b : Int))).1 : Int) ∧
      ∃ k : Nat, cursor = start + 2 * k * rt.N_WORD_BYTES ∧
        (found = false → 2 * (b : Int) - budget = 2 * (k : Int)) ∧
        (found = true → 2 * (b : Int) - budget = 2 * (k : Int) + 2) := by
  intro fuel
  induction fuel with
  | zero => intro b start found cursor budget h; simp [search_for_type_log] at h
  | succ fuel ih =>
    intro b start found cursor budget h
    rw [search_for_type_log] at h ⊢
    cases b with
    | zero =>
      have hneg : ¬ ((2 * ((0 : Nat) : Int)) = -1 ∨ (2 * ((0 : Nat) : Int)) > 0) := by
        intro hc; rcases hc with hc | hc <;> omega
      rw [if_neg hneg] at h ⊢
      simp only [Option.some.injEq, Prod.mk.injEq] at h
      obtain ⟨h1, h2, h3⟩ := h
      subst h1; subst h2; subst h3
      refine ⟨by simp [comparisons], 0, by simp, fun _ => by simp, fun hc => by simp at hc⟩
    | succ b =>
      have hpos : (2 * ((b + 1 : Nat) : Int) = -1 ∨ 2 * ((b + 1 : Nat) : Int) > 0) := by
        right; push_cast; omega
      have hdec : (if 2 * ((b + 1 : Nat) : Int) ≠ -1 then 2 * ((b + 1 : Nat) : Int) - 2
          else 2 * ((b + 1 : Nat) : Int)) = 2 * (b : Int) := by
        push_cast; split_ifs <;> omega
      rw [if_pos hpos] at h ⊢
      by_cases hm : rt.gc_managed_addr_p start = true
      · rw [if_pos hm] at h ⊢
        by_cases hw : (rt.widetag_of (read_word rt m start) : Int) = type
        · simp only [hw, if_true, hdec, Option.some.injEq, Prod.mk.injEq] at h ⊢
          obtain ⟨h1, h2, h3⟩ := h
          subst h1; subst h2; subst h3
          rw [comparisons_managed, comparisons_word]
          refine ⟨by simp [comparisons]; omega, 0, by simp,
            fun hc => by simp at hc, fun _ => by push_cast; omega⟩
        · simp only [hw, if_false, hdec] at h ⊢
          obtain ⟨hcmp, k, hk, hf, ht⟩ := ih b _ found cursor budget h
          rw [comparisons_managed, comparisons_word]
          refine ⟨by push_cast at hcmp ⊢; omega, k + 1, ?_, ?_, ?_⟩
          · rw [hk]; ring
          · intro hc; have := hf hc; push_cast; omega
          · intro hc; have := ht hc; push_cast; omega
      · rw [if_neg hm] at h ⊢
        simp only [Option.some.injEq, Prod.mk.injEq] at h
        obtain ⟨h1, h2, h3⟩ := h
        subst h1; subst h2; subst h3
        refine ⟨by simp [comparisons], 0, by simp, fun _ => by simp, fun hc => by simp at hc⟩

/-- C15: with the budget -1 the budget is -1 on return; with an even budget
`2 * b` the budget used (the budget on entry minus the budget on return) is
twice the number of cells examined, the cursor is `2 * k` words on for some
`k`, and the budget used is `2 * k`, the cursor advance in words, on a false
return and `2 * k + 2` on a true return. -/
theorem search_for_type_budget_accounting (rt : Runtime) (m : Memory) (type : Int)
    (fuel start : Nat) (found : Bool) (cursor : Nat) (budget : Int) :
    (search_for_type rt m type fuel start (-1) = some (found, cursor, budget) →
      budget = -1) ∧
    (∀ b : Nat,
      search_for_type rt m type fuel start (2 * (b : Int)) = some (found, cursor, budget) →
      2 * (b : Int) - budget
        = 2 * (comparisons (search_for_type_log rt m type fuel start (2 * (b : Int))).1 : Int) ∧
      ∃ k : Nat, cursor = start + 2 * k * rt.N_WORD_BYTES ∧
        (found = false → 2 * (b : Int) - budget = 2 * (k : Int)) ∧
        (found = true → 2 * (b : Int) - budget = 2 * (k : Int) + 2)) := by
  refine ⟨search_for_type_unbounded_budget rt m type fuel start found cursor budget, ?_⟩
  intro b h
  rw [← search_for_type_log_result] at h
  exact search_for_type_even_budget_account rt m type fuel b start found cursor budget h

/-- Witness for C15 on the six cells: budget 4 gives a false return two cells on
with 4 used; budget 10 gives a true return three cells on with 8 used. -/
theorem search_for_type_budget_accounting_witness :
    search_for_type demo_runtime six_cells 45 10 4096 (2 * ((5 : Nat) : Int))
      = some (true, 4144, 2) ∧
    (2 * ((5 : Nat) : Int) - 2
        = 2 * (comparisons (search_for_type_log demo_runtime six_cells 45 10 4096
            (2 * ((5 : Nat) : Int))).1 : Int) ∧
      ∃ k : Nat, 4144 = 4096 + 2 * k * demo_runtime.N_WORD_BYTES ∧
        (true = false → 2 * ((5 : Nat) : Int) - 2 = 2 * (k : Int)) ∧
        (true = true → 2 * ((5 : Nat) : Int) - 2 = 2 * (k : Int) + 2)) :=
  ⟨by decide,
   (search_for_type_budget_accounting demo_runtime six_cells 45 10 4096 true 4144 2).2 5
     (by decide)⟩

/-- C18: after a true return of `search_for_type` with the cursor at `c`, a
second call with the same tag, the cursor `c` and a budget that is -1 or
positive returns true again with the cursor still at `c` (and the budget, when
bounded, 2 lower). -/
theorem search_for_type_match_is_fixed (rt : Runtime) (m : Memory) (type : Int)
    (fuel start : Nat) (count : Int) (c : Nat) (r : Int)
    (h : search_for_type rt m type fuel start count = some (true, c, r))
    (fuel2 : Nat) (count2 : Int) (hc : count2 = -1 ∨ count2 > 0) :
    search_for_type rt m type (fuel2 + 1) c count2
      = some (true, c, if count2 ≠ -1 then count2 - 2 else count2) := by
  obtain ⟨hm, hw⟩ := search_for_type_true_at rt m type fuel start count c r h
  exact search_for_type_hit rt m type fuel2 c count2 hc hm hw

/-- Witness for C18 on the six cells: the unbounded scan stops at 4144, and so
does a second scan started there. -/
theorem search_for_type_match_is_fixed_witness :
    search_for_type demo_runtime six_cells 45 10 4096 (-1) = some (true, 4144, -1) ∧
    search_for_type demo_runtime six_cells 45 (0 + 1) 4144 (-1)
      = some (true, 4144, if (-1 : Int) ≠ -1 then (-1 : Int) - 2 else -1) :=
  ⟨by decide,
   search_for_type_match_is_fixed demo_runtime six_cells 45 10 4096 (-1) 4144 (-1) (by decide)
     0 (-1) (by decide)⟩

/-! ## How far the comparators read -/

/-- When the bytes in memory agree with the target before its first NUL,
`strcmp` reads the byte at the index of that NUL. -/
theorem strcmp_log_reads_terminator (m : Memory) :
    ∀ (name : CString) (a : Nat),
      (∀ i, i < strlen name → m (a + i) = name.getD i 0) →
      Access.byte (a + strlen name) ∈ (strcmp_log m a name).1 := by
  intro name
  induction name with
  | nil => intro a _; simp [strcmp_log, strlen]
  | cons c cs ih =>
    intro a h
    rw [strcmp_log]
    by_cases h2 : c.val = 0
    · have hs : strlen (c :: cs) = 0 := by simp [strlen, h2]
      rw [hs]
      split_ifs <;> simp
    · have hs : strlen (c :: cs) = strlen cs + 1 := by simp [strlen, h2]
      have h0 := h 0 (by omega)
      simp only [Nat.add_zero, List.getD_cons_zero] at h0
      have h1 : ¬ (m a).val ≠ c.val := by rw [h0]; simp
      rw [if_neg h1, if_neg h2, hs]
      apply List.mem_cons_of_mem
      have e : a + (strlen cs + 1) = a + 1 + strlen cs := by omega
      rw [e]
      apply ih
      intro i hi
      have := h (i + 1) (by omega)
      have e2 : a + (i + 1) = a + 1 + i := by omega
      rw [e2] at this
      simpa using this

/-- When the units in memory agree with the target before its first NUL,
`strcmp_ucs4_ascii` reads the unit at the index of that NUL. -/
theorem strcmp_ucs4_ascii_log_reads_terminator (rt : Runtime) (m : Memory) :
    ∀ (name : CString) (a : Nat),
      (∀ i, i < strlen name → read_u32 m (a + 4 * i) = (name.getD i 0).val) →
      Access.unit32 (a + 4 * strlen name) ∈ (strcmp_ucs4_ascii_log rt m a name).1 := by
  intro name
  induction name with
  | nil =>
    intro a _
    rw [strcmp_ucs4_ascii_log]
    split_ifs <;> simp [strlen]
  | cons c cs ih =>
    intro a h
    rw [strcmp_ucs4_ascii_log]
    by_cases h2 : c.val = 0
    · have hs : strlen (c :: cs) = 0 := by simp [strlen, h2]
      rw [hs]
      split_ifs <;> simp
    · have hs : strlen (c :: cs) = strlen cs + 1 := by simp [strlen, h2]
      have h0 := h 0 (by omega)
      simp only [Nat.mul_zero, Nat.add_zero, List.getD_cons_zero] at h0
      rw [if_pos h0, if_neg h2, hs]
      apply List.mem_cons_of_mem
      have e : a + 4 * (strlen cs + 1) = a + 4 + 4 * strlen cs := by omega
      rw [e]
      apply ih
      intro i hi
      have := h (i + 1) (by omega)
      have e2 : a + 4 * (i + 1) = a + 4 + 4 * i := by omega
      rw [e2] at this
      simpa using this

/-- C16, as stated, fails on the code: a comparison that finds the first `n`
elements equal goes on to read the element at index `n`.  In the search for
`TARGET` (6 bytes) the byte at index 6 of the name's data (4272 + 6) is read,
and in the search for `BAR` over the character string the unit at index 3
(4160 + 4 * 3) is read; both names have the target's length as stored
length. -/
theorem search_for_symbol_reads_index_n :
    (strlen target_name = 6 ∧
      read_word demo_runtime three_objects (vector_length_addr demo_runtime 4256)
        = demo_runtime.make_fixnum 6 ∧
      vector_data_addr demo_runtime 4256 = 4272 ∧
      Access.byte (4272 + 6) ∈
        (search_for_symbol_log demo_runtime three_objects target_name 4096 4224 129).1) ∧
    (strlen bar_name = 3 ∧
      read_word demo_runtime bar_wide (vector_length_addr demo_runtime 4144)
        = demo_runtime.make_fixnum 3 ∧
      vector_data_addr demo_runtime 4144 = 4160 ∧
      Access.unit32 (4160 + 4 * 3) ∈
        (search_for_symbol_log demo_runtime bar_wide bar_name 4096 4144 49).1) := by
  refine ⟨⟨?_, ?_, ?_, ?_⟩, ?_, ?_, ?_, ?_⟩ <;> decide

/-- C16, amended: with `n` the target's length, every byte and every 32-bit
unit that the test of a candidate reads is a data element of the candidate's
name at an index of at most `n`: the comparison reads the elements below `n`
and at most the one at index `n`, where a name of length `n` has its
terminating NUL, and never an element beyond index `n`.  The element at index
`n` is read whenever the elements before it agree with the target. -/
theorem search_for_symbol_comparison_reads_bound (rt : Runtime) (m : Memory) (name : CString)
    (o word : Nat) (e : Access)
    (he : e ∈ (candidate_matches_log rt m name (rt.make_fixnum (strlen name)) o word).1) :
    (∀ a, e = Access.byte a →
      ∃ i, i ≤ strlen name ∧ a = vector_data_addr rt (symbol_name_vector rt m o) + i) ∧
    (∀ a, e = Access.unit32 a →
      ∃ i, i ≤ strlen name ∧ a = vector_data_addr rt (symbol_name_vector rt m o) + 4 * i) ∧
    (∀ d, (∀ i, i < strlen name → m (d + i) = name.getD i 0) →
      Access.byte (d + strlen name) ∈ (strcmp_log m d name).1) ∧
    (∀ d, (∀ i, i < strlen name → read_u32 m (d + 4 * i) = (name.getD i 0).val) →
      Access.unit32 (d + 4 * strlen name) ∈ (strcmp_ucs4_ascii_log rt m d name).1) := by
  obtain ⟨-, hacc⟩ := candidate_matches_log_access rt m name _ o word e he
  refine ⟨?_, ?_, strcmp_log_reads_terminator m name,
    strcmp_ucs4_ascii_log_reads_terminator rt m name⟩
  · intro a ha
    subst ha
    rcases hacc with h | h | ⟨-, h | h | ⟨-, h | h | ⟨i, hi, h⟩ | ⟨i, -, h⟩⟩⟩
    · simp at h
    · simp at h
    · simp at h
    · simp at h
    · simp at h
    · simp at h
    · exact ⟨i, hi, by simpa using h⟩
    · simp at h
  · intro a ha
    subst ha
    rcases hacc with h | h | ⟨-, h | h | ⟨-, h | h | ⟨i, -, h⟩ | ⟨i, hi, h⟩⟩⟩
    · simp at h
    · simp at h
    · simp at h
    · simp at h
    · simp at h
    · simp at h
    · simp at h
    · exact ⟨i, hi, by simpa using h⟩

/-- Witness for C16 amended: the byte at 4278 that the test of the symbol
`TARGET` reads is the data element at index 6 of its name. -/
theorem search_for_symbol_comparison_reads_bound_witness :
    Access.byte 4278 ∈ (candidate_matches_log demo_runtime three_objects target_name
      (demo_runtime.make_fixnum (strlen target_name)) 4176 45).1 ∧
    ∃ i, i ≤ strlen target_name ∧
      4278 = vector_data_addr demo_runtime (symbol_name_vector demo_runtime three_objects 4176)
        + i :=
  ⟨by decide,
   (search_for_symbol_comparison_reads_bound demo_runtime three_objects target_name 4176 45
     (Access.byte 4278) (by decide)).1 4278 rfl⟩

/-! ## The return value of `strcmp_ucs4_ascii` -/

/-- A little-endian read of `n` bytes is below `256 ^ n`. -/
theorem read_le_lt (m : Memory) : ∀ (n a : Nat), read_le m a n < 256 ^ n := by
  intro n
  induction n with
  | zero => intro a; simp [read_le]
  | succ n ih =>
    intro a
    rw [read_le, pow_succ]
    have h1 := ih (a + 1)
    have h2 := (m a).isLt
    omega

/-- A 32-bit unit is below `2 ^ 32`. -/
theorem read_u32_lt (m : Memory) (a : Nat) : read_u32 m a < 4294967296 := by
  have := read_le_lt m 4 a
  rw [read_u32]
  norm_num at this
  exact this

/-- The subtraction of line 52 is not 0 for a unit that differs from the target
byte, provided the byte is converted without sign extension. -/
theorem ucs4_difference_ne_zero (rt : Runtime) (unit : Nat) (c : Byte)
    (hu : unit < 4294967296) (hc : rt.char_signed = false ∨ c.val < 128)
    (hne : unit ≠ c.val) : ucs4_difference rt unit c ≠ 0 := by
  have hch : char_as_u32 rt c = c.val := by
    unfold char_as_u32
    rcases hc with h | h
    · simp [h]
    · rw [if_neg (fun hh => by omega)]
  have hlt := c.isLt
  unfold ucs4_difference u32_as_int
  rw [hch]
  norm_num
  split_ifs <;> omega

/-- Where `char` is unsigned, or the target is ASCII, `strcmp_ucs4_ascii`
returns 0 exactly when the units agree with the target bytes on every index up
to and including the target's first NUL. -/
theorem strcmp_ucs4_ascii_eq_zero_iff (rt : Runtime) (m : Memory) :
    ∀ (name : CString), (rt.char_signed = false ∨ ∀ c, c ∈ name → c.val < 128) →
      ∀ (a : Nat), strcmp_ucs4_ascii rt m a name = 0 ↔
        ∀ i, i ≤ strlen name → read_u32 m (a + 4 * i) = (name.getD i 0).val := by
  intro name hok a
  constructor
  · induction name generalizing a with
    | nil =>
      intro h i hi
      have hi0 : i = 0 := by simpa [strlen] using hi
      subst hi0
      simp only [Nat.mul_zero, Nat.add_zero, List.getD_nil]
      by_contra hne
      have hne0 : ¬ read_u32 m a = 0 := by simpa using hne
      rw [strcmp_ucs4_ascii, if_neg hne0] at h
      exact ucs4_difference_ne_zero rt _ 0 (read_u32_lt m a) (Or.inr (by simp)) hne h
    | cons c cs ih =>
      intro h i hi
      have hokc : rt.char_signed = false ∨ c.val < 128 := by
        rcases hok with h1 | h1
        · exact Or.inl h1
        · exact Or.inr (h1 c (List.mem_cons_self _ _))
      have hoks : rt.char_signed = false ∨ ∀ d, d ∈ cs → d.val < 128 := by
        rcases hok with h1 | h1
        · exact Or.inl h1
        · exact Or.inr (fun d hd => h1 d (List.mem_cons_of_mem _ hd))
      rw [strcmp_ucs4_ascii] at h
      by_cases h1 : read_u32 m a = c.val
      · rw [if_pos h1] at h
        by_cases h2 : c.val = 0
        · have hi0 : i = 0 := by simpa [strlen, h2] using hi
          subst hi0
          simpa using h1
        · rw [if_neg h2] at h
          cases i with
          | zero => simpa using h1
          | succ i =>
            have hi2 : i ≤ strlen cs := by
              simp only [strlen, h2, if_false] at hi; omega
            have := ih hoks (a + 4) h i hi2
            have e : a + 4 * (i + 1) = a + 4 + 4 * i := by omega
            rw [e]
            simpa using this
      · rw [if_neg h1] at h
        exact absurd h (ucs4_difference_ne_zero rt _ c (read_u32_lt m a) hokc h1)
  · exact strcmp_ucs4_ascii_eq_zero_of_agree rt m name a

/-- C17, the code at the unit `0xFFFFFFE9` against the byte `0xE9` with `char`
signed: the unit differs from the byte taken as an unsigned byte, the loop is
left on the mismatch, and the subtraction of line 52, which takes the byte as a
signed `char`, gives 0: `strcmp_ucs4_ascii` returns 0. -/
theorem strcmp_ucs4_ascii_zero_on_mismatch :
    demo_runtime.char_signed = true ∧
    read_u32 unit_ffffffe9 4096 = 0xFFFFFFE9 ∧
    (e9_name.getD 0 0).val = 0xE9 ∧
    read_u32 unit_ffffffe9 4096 ≠ (e9_name.getD 0 0).val ∧
    ucs4_difference demo_runtime 0xFFFFFFE9 233 = 0 ∧
    strcmp_ucs4_ascii demo_runtime unit_ffffffe9 4096 e9_name = 0 := by
  refine ⟨?_, ?_, ?_, ?_, ?_, ?_⟩ <;> decide

end Sbcl
